import Mathlib

/-!
# Verification of the four-nines puzzle core

A shallow embedding of the core of the `four-nines-game` repository
(`scripts/ast_nodes.py`, `scripts/hint_generator.py`,
`scripts/expr_generator.py`, `scripts/leaf_nodes.py`) together with proofs
about the embedded definitions.

Strings are modelled as `List Char`.  Python `Decimal` literal values are
modelled by `DecLit` (sign, integer-part digits, fraction-part digits),
which captures exactly the information `Decimal` keeps for the literals this
program manipulates (construction from a literal string and `str` round-trip,
including trailing fraction zeros and normalisation of leading zeros).
Numeric values during evaluation are modelled as exact rationals `ℚ`;
the 10-significant-digit context rounding of the `decimal` module and the
float-based square root are modelled by exact rational stand-ins.  The
theorems below concern the guarded control flow of the evaluator, string
rendering/parsing, and the search engine's acceptance logic; none of them
depends on the rounded numeric values produced on the non-integral paths.
-/

namespace FourNines

/-- A decimal literal as stored by `NumberNode` (a Python `Decimal` built
from a literal string): sign, integer-part digits, fraction-part digits.
`str` of such a `Decimal` prints the sign, the integer digits, and — when the
fraction part is nonempty — a dot followed by the fraction digits. -/
structure DecLit where
  sign : Bool
  ip : List Nat
  fp : List Nat
deriving DecidableEq, Repr

/-- Well-formed literal as produced by `Decimal(<literal string>)`:
non-negative (the generator's leaves are all non-negative), nonempty
normalised integer part (no leading zero unless the integer part is exactly
`0`), digits below ten. -/
def DecLit.WF (l : DecLit) : Prop :=
  l.sign = false ∧ l.ip ≠ [] ∧ (l.ip = [0] ∨ l.ip.headD 0 ≠ 0) ∧
    (∀ d ∈ l.ip, d < 10) ∧ (∀ d ∈ l.fp, d < 10)

instance (l : DecLit) : Decidable l.WF := by
  unfold DecLit.WF; infer_instance

/-- Digit character of a digit (`0 ↦ '0'`, …, `9 ↦ '9'`). -/
def digitChar (d : Nat) : Char := Nat.digitChar d

/-- `str` of the modelled `Decimal`: sign, integer digits, then `.` and the
fraction digits when the fraction part is nonempty. -/
def renderLit (l : DecLit) : List Char :=
  (if l.sign then ['-'] else []) ++ l.ip.map digitChar ++
    (if l.fp = [] then [] else '.' :: l.fp.map digitChar)

/-- Numeric value of a literal, as an exact rational. -/
def litVal (l : DecLit) : ℚ :=
  let ipv : ℚ := (l.ip.foldl (fun a d => 10 * a + d) 0 : ℕ)
  let fpv : ℚ := (l.fp.foldl (fun a d => 10 * a + d) 0 : ℕ) / ((10 : ℚ) ^ l.fp.length)
  (if l.sign then -1 else 1) * (ipv + fpv)

/-- Unary operators of `ast_nodes.py` (`'!'`, `'sqrt'`, `'neg'`). -/
inductive UOp where
  | factOp
  | sqrtOp
  | negOp
deriving DecidableEq, Repr

/-- Binary operators of `ast_nodes.py` (`'+' '-' '*' '/' '^' '%'`). -/
inductive BOp where
  | add
  | sub
  | mul
  | div
  | powOp
  | modOp
deriving DecidableEq, Repr

/-- The AST of `ast_nodes.py`: `NumberNode`, `UnaryOpNode`, `BinaryOpNode`. -/
inductive Expr where
  | num (lit : DecLit)
  | unary (op : UOp) (operand : Expr)
  | binary (op : BOp) (left right : Expr)
deriving DecidableEq, Repr

/-- Operator character of a binary operator. -/
def bopChar : BOp → Char
  | .add => '+'
  | .sub => '-'
  | .mul => '*'
  | .div => '/'
  | .powOp => '^'
  | .modOp => '%'

/-- Is this expression a bare `NumberNode`?  (`isinstance(self.operand, NumberNode)`). -/
def Expr.isNum : Expr → Bool
  | .num _ => true
  | _ => false

/-- Canonical rendering, the `__str__` methods of `ast_nodes.py`:
`NumberNode` prints its `Decimal` value; `(X!)` for factorial; `sqrt(X)`;
`-X` for negation of a bare number and `-(X)` otherwise; `(L op R)` for
binary nodes. -/
def render : Expr → List Char
  | .num l => renderLit l
  | .unary .factOp x => '(' :: render x ++ ['!', ')']
  | .unary .sqrtOp x => 's' :: 'q' :: 'r' :: 't' :: '(' :: render x ++ [')']
  | .unary .negOp x =>
    if x.isNum then '-' :: render x else '-' :: '(' :: render x ++ [')']
  | .binary op l r => '(' :: render l ++ ' ' :: bopChar op :: ' ' :: render r ++ [')']

/-- Structural depth of a tree (used only to supply parser fuel). -/
def Expr.depth : Expr → Nat
  | .num _ => 0
  | .unary _ x => x.depth + 1
  | .binary _ l r => max l.depth r.depth + 1

/-! ## The guarded evaluator (`Node.evaluate` in `ast_nodes.py`)

Evaluation failure (`EvaluationError`) is modelled as `none`.  Numeric
values are exact rationals; the two places where `ast_nodes.py` leaves the
exact decimal world — `sqrt` via `float` and non-integral exponents via
`exp(r·ln|b|)` — are modelled by computable rational stand-ins
(`sqrtApprox`, `powApprox`).  Every claim proved below depends only on the
guard structure around these calls, never on the approximated values. -/

/-- `MAX_NUMBER = Decimal('1e20')`. -/
def MAX_NUMBER : ℚ := 10 ^ 20

/-- `MAX_FACTORIAL = 20`. -/
def MAX_FACTORIAL : ℚ := 20

/-- `MAX_EXPONENT = 20`. -/
def MAX_EXPONENT : ℚ := 20

/-- `Node._check_overflow`: fail when `abs(value) > MAX_NUMBER`. -/
def checkOverflow (v : ℚ) : Option ℚ :=
  if |v| > MAX_NUMBER then none else some v

/-- `Node._is_integer`: `value == value.to_integral_value()`. -/
def isIntegerQ (v : ℚ) : Prop := v.den = 1

instance (v : ℚ) : Decidable (isIntegerQ v) := by unfold isIntegerQ; infer_instance

/-- Stand-in for `Decimal(sqrt(float(value)))` (an integer square root scaled
back to the operand's denominator); the verified claims use only the fact
that its result passes through `_check_overflow`. -/
def sqrtApprox (q : ℚ) : ℚ :=
  (Nat.sqrt (q.num.toNat * q.den) : ℚ) / (q.den : ℚ)

/-- Stand-in for `Decimal.exp(right * Decimal.ln(abs(left)))` on the
non-integral-exponent path; the verified claims never depend on this value. -/
def powApprox (b e : ℚ) : ℚ := |b| ^ ⌊e⌋

/-- Truncation toward zero, Python `int(Decimal)`. -/
def truncQ (v : ℚ) : ℤ := v.num.tdiv (v.den : ℤ)

/-- Is the node a `neg` `UnaryOpNode`?  (the double-negation test
`isinstance(self.operand, UnaryOpNode) and self.operand.op == 'neg'`). -/
def Expr.isNegNode : Expr → Bool
  | .unary .negOp _ => true
  | _ => false

/-- `Node.evaluate`, branch for branch:

* `NumberNode.evaluate` returns the stored value unchecked;
* `sqrt`: fixed points `0`, `1`; fails on negative operands; otherwise the
  computed root is checked against the magnitude bound;
* `'!'`: fixed point `1`; fails on non-integers, negatives and operands
  above `MAX_FACTORIAL`; the exact factorial is checked against the bound;
* `neg`: fails when the operand node is itself a `neg` node, else negates;
* `+ - *`: result checked against the bound;
* `/`: fails on a zero divisor, result checked;
* `^`: fails when the exponent exceeds `MAX_EXPONENT` or `abs(base) > 100`
  or a negative base meets a non-integral exponent; `Decimal` signals
  `InvalidOperation` (mapped to failure) on `0 ** 0`, `0 ** negative` and
  `ln(0)`; the result is checked against the bound;
* `%`: fails on a zero divisor or non-integral operands; truncated remainder. -/
def evaluate : Expr → Option ℚ
  | .num l => some (litVal l)
  | .unary op x => do
    let v ← evaluate x
    match op with
    | .sqrtOp =>
      if v = 0 ∨ v = 1 then some v
      else if v < 0 then none
      else checkOverflow (sqrtApprox v)
    | .factOp =>
      if v = 1 then some v
      else if ¬ isIntegerQ v then none
      else if v < 0 then none
      else if v > MAX_FACTORIAL then none
      else checkOverflow ((Nat.factorial v.num.toNat : ℚ))
    | .negOp =>
      if x.isNegNode then none else some (-v)
  | .binary op l r => do
    let lv ← evaluate l
    let rv ← evaluate r
    match op with
    | .add => checkOverflow (lv + rv)
    | .sub => checkOverflow (lv - rv)
    | .mul => checkOverflow (lv * rv)
    | .div => if rv = 0 then none else checkOverflow (lv / rv)
    | .powOp =>
      if rv > MAX_EXPONENT then none
      else if |lv| > 100 then none
      else if lv < 0 ∧ ¬ isIntegerQ rv then none
      else if isIntegerQ rv then
        if lv = 0 ∧ rv.num ≤ 0 then none
        else checkOverflow (lv ^ rv.num)
      else
        if lv = 0 then none
        else
          let raw := powApprox lv rv
          let signed := if lv < 0 ∧ (truncQ rv) % 2 = 1 then -raw else raw
          checkOverflow signed
    | .modOp =>
      if rv = 0 then none
      else if ¬ isIntegerQ rv ∨ ¬ isIntegerQ lv then none
      else checkOverflow ((lv.num.tmod rv.num : ℤ) : ℚ)

/-! ## The canonical-string parser (`ExpressionParser.parse` in
`hint_generator.py`)

The Python parser is a recursive string procedure; each recursive call
receives a strictly shorter string, so it is modelled with an explicit fuel
argument (`parseTop` supplies `length + 1`, which always suffices).
A raised `ValueError` is modelled as `none`. -/

/-- Python `str.strip()` on the left. -/
def trimLeft (s : List Char) : List Char := s.dropWhile fun c => c.isWhitespace

/-- Python `str.strip()` on the right. -/
def trimRight (s : List Char) : List Char :=
  (s.reverse.dropWhile fun c => c.isWhitespace).reverse

/-- Python `str.strip()`. -/
def trim (s : List Char) : List Char := trimRight (trimLeft s)

/-- The characters `'(+-*/^%'` used by the unary-minus skip rule. -/
def skipSet : List Char := ['(', '+', '-', '*', '/', '^', '%']

/-- The characters `'+-*/^%'` (binary-operator heads). -/
def binChars : List Char := ['+', '-', '*', '/', '^', '%']

/-- The right-to-left root-operator scan of `parse`: `i` is one past the
next index to examine, `depth` the running parenthesis count of the suffix
already examined.  Mirrors the loop
`for i in range(len(expr) - 1, -1, -1)` with its two skip rules (an
operator flanked by digits belongs to a number; a `-` at the start or after
`'(+-*/^%'` is a unary sign). -/
def scanAux (s : List Char) (band : List Char) : Nat → Int → Option Nat
  | 0, _ => none
  | i + 1, depth =>
    let c := s.getD i ' '
    if c = '(' then scanAux s band i (depth + 1)
    else if c = ')' then scanAux s band i (depth - 1)
    else if depth = 0 ∧ c ∈ band then
      if (c = '+' ∨ c = '-') ∧ 0 < i ∧ (s.getD (i - 1) ' ').isDigit ∧
          i + 1 < s.length ∧ (s.getD (i + 1) ' ').isDigit then
        scanAux s band i depth
      else if c = '-' ∧ (i = 0 ∨ s.getD (i - 1) ' ' ∈ skipSet) then
        scanAux s band i depth
      else some i
    else scanAux s band i depth

/-- Scan a whole string for a root-level operator of the given band. -/
def scanBand (s : List Char) (band : List Char) : Option Nat :=
  scanAux s band s.length 0

/-- The matched-outer-parentheses test of `parse`: iterate over `expr[:-1]`
tracking depth and report `false` (a break: the outer parentheses do not
match) when the running depth returns to zero early. -/
def noZeroPref : List Char → Int → Bool
  | [], _ => true
  | c :: rest, d =>
    let d' := d + (if c = '(' then 1 else if c = ')' then -1 else 0)
    if d' = 0 then false else noZeroPref rest d'

/-- The `while expr[0] == '(' and expr[-1] == ')'` stripping loop of
`parse`; `none` models the `"Empty parentheses"` error. -/
def stripLoop : Nat → List Char → Option (List Char)
  | 0, _ => none
  | fuel + 1, s =>
    if s.headD ' ' = '(' ∧ s.getLastD ' ' = ')' then
      if noZeroPref s.dropLast 0 then
        let s' := trim (s.drop 1).dropLast
        if s' = [] then none else stripLoop fuel s'
      else some s
    else some s

/-- Strip matched outer parentheses repeatedly. -/
def stripParens (s : List Char) : Option (List Char) :=
  stripLoop (s.length + 1) s

/-- Forward scan for the parenthesis closing `sqrt(`, from index 5 with
depth 1 (`for i in range(5, len(expr))`). -/
def findCloseAux (s : List Char) : Nat → Nat → Int → Option Nat
  | 0, _, _ => none
  | gas + 1, i, depth =>
    if i < s.length then
      let c := s.getD i ' '
      if c = '(' then findCloseAux s gas (i + 1) (depth + 1)
      else if c = ')' then
        if depth - 1 = 0 then some i else findCloseAux s gas (i + 1) (depth - 1)
      else findCloseAux s gas (i + 1) depth
    else none

/-- Find the parenthesis closing a leading `sqrt(`. -/
def findClose (s : List Char) : Option Nat := findCloseAux s s.length 5 1

/-- The backward scan of the factorial branch
(`for i in range(len(inner)-2, -1, -1)` with `paren_depth = 1`): find the
opening parenthesis matching the final one. -/
def backFindAux (s : List Char) : Nat → Int → Option Nat
  | 0, _ => none
  | i + 1, d =>
    let c := s.getD i ' '
    if c = ')' then backFindAux s i (d + 1)
    else if c = '(' then
      if d - 1 = 0 then some i else backFindAux s i (d - 1)
    else backFindAux s i d

/-- Numeric value of a digit character. -/
def digitVal (c : Char) : Nat := c.toNat - '0'.toNat

/-- `Decimal` normalisation of integer-part digits: drop leading zeros,
an empty or all-zero integer part becomes the single digit `0`. -/
def normIp (ds : List Nat) : List Nat :=
  let t := ds.dropWhile fun d => d = 0
  if t = [] then [0] else t

/-- `Decimal(<string>)` on the literal forms this program produces:
an optional sign, digits with at most one decimal point and at least one
digit; anything else fails.  (Exponent notation, `Infinity`/`NaN` and
embedded whitespace, which `Decimal` would also accept, never occur in this
program's strings and are not modelled.) -/
def parseDecLit (s : List Char) : Option DecLit :=
  let sign : Bool := s.headD ' ' = '-'
  let s1 := if s.headD ' ' = '-' ∨ s.headD ' ' = '+' then s.drop 1 else s
  let d1 := s1.takeWhile Char.isDigit
  let r1 := s1.dropWhile Char.isDigit
  if r1 = [] then
    if d1 = [] then none else some ⟨sign, normIp (d1.map digitVal), []⟩
  else if r1.headD ' ' = '.' then
    let r2 := r1.drop 1
    let d2 := r2.takeWhile Char.isDigit
    let r3 := r2.dropWhile Char.isDigit
    if r3 ≠ [] then none
    else if d1 = [] ∧ d2 = [] then none
    else some ⟨sign, normIp (d1.map digitVal), d2.map digitVal⟩
  else none

/-- Binary operator denoted by a character. -/
def bopOfChar (c : Char) : Option BOp :=
  if c = '+' then some .add
  else if c = '-' then some .sub
  else if c = '*' then some .mul
  else if c = '/' then some .div
  else if c = '^' then some .powOp
  else if c = '%' then some .modOp
  else none

/-- Split at a root-level binary operator found at index `i` (the return
paths inside the scan loop of `parse`): empty operands are errors, and a
`^` whose right side starts with `-` builds an explicit `neg` node around
the exponent. -/
def splitAt (pRec : List Char → Option Expr) (s : List Char) (i : Nat) : Option Expr :=
  let c := s.getD i ' '
  let left := trim (s.take i)
  let right := trim (s.drop (i + 1))
  if left = [] ∨ right = [] then none
  else if c = '^' ∧ right.headD ' ' = '-' then
    let inner := trim (right.drop 1)
    if inner = [] then none
    else do
      let l ← pRec left
      let r ← pRec inner
      some (.binary .powOp l (.unary .negOp r))
  else do
    let op ← bopOfChar c
    let l ← pRec left
    let r ← pRec right
    some (.binary op l r)

/-- The unary/number branches of `parse`, tried when no root-level binary
operator was found: leading `sqrt(` (with its factorial/operator tail
handling), trailing `!` (with the lookback for an operator before a final
parenthesised group), leading `-` (negative literal or unary minus), and
finally a bare numeric literal. -/
def parseNoBin (pRec : List Char → Option Expr) (s : List Char) : Option Expr :=
  if s.take 5 = ['s', 'q', 'r', 't', '('] then
    match findClose s with
    | none => none
    | some i =>
      let inner := (s.drop 5).take (i - 5)
      if inner = [] then none
      else if i + 1 < s.length then
        let rest := trim (s.drop (i + 1))
        if rest = [] then do
          let x ← pRec inner
          some (.unary .sqrtOp x)
        else if rest.headD ' ' = '!' then
          if 1 < rest.length then
            let remaining := trim (rest.drop 1)
            match remaining with
            | [] => none
            | rc :: rtail =>
              if rc ∈ binChars then do
                let op ← bopOfChar rc
                let x ← pRec inner
                let rexp ← pRec rtail
                some (.binary op (.unary .factOp (.unary .sqrtOp x)) rexp)
              else none
          else do
            let x ← pRec inner
            some (.unary .factOp (.unary .sqrtOp x))
        else if rest.headD ' ' ∈ binChars then do
          let op ← bopOfChar (rest.headD ' ')
          let x ← pRec inner
          let rexp ← pRec (rest.drop 1)
          some (.binary op (.unary .sqrtOp x) rexp)
        else none
      else do
        let x ← pRec inner
        some (.unary .sqrtOp x)
  else if s.getLastD ' ' = '!' then
    let inner := trim s.dropLast
    if inner = [] then none
    else if inner.getLastD ' ' = ')' then
      match backFindAux inner (inner.length - 1) 1 with
      | some j =>
        if 0 < j ∧ inner.getD (j - 1) ' ' ∈ binChars then do
          let op ← bopOfChar (inner.getD (j - 1) ' ')
          let l ← pRec (trim (inner.take (j - 1)))
          let m ← pRec (trim (inner.drop j))
          some (.binary op l (.unary .factOp m))
        else do
          let x ← pRec inner
          some (.unary .factOp x)
      | none => do
        let x ← pRec inner
        some (.unary .factOp x)
    else do
      let x ← pRec inner
      some (.unary .factOp x)
  else if s.headD ' ' = '-' then
    if 1 < s.length ∧ ((s.getD 1 ' ').isDigit ∨ s.getD 1 ' ' = '.') then
      match parseDecLit s with
      | some l => some (.num l)
      | none => none
    else
      let inner := trim (s.drop 1)
      if inner = [] then none
      else do
        let x ← pRec inner
        some (.unary .negOp x)
  else
    match parseDecLit s with
    | some l => some (.num l)
    | none => none

/-- `ExpressionParser.parse`, with fuel for the recursion (every Python
recursive call is on a strictly shorter string). -/
def parse : Nat → List Char → Option Expr
  | 0, _ => none
  | fuel + 1, s0 =>
    let s1 := trim s0
    if s1 = [] then none
    else
      match stripParens s1 with
      | none => none
      | some s =>
        match scanBand s ['^'] with
        | some i => splitAt (parse fuel) s i
        | none =>
          match scanBand s ['*', '/', '%'] with
          | some i => splitAt (parse fuel) s i
          | none =>
            match scanBand s ['+', '-'] with
            | some i => splitAt (parse fuel) s i
            | none => parseNoBin (parse fuel) s

/-- `parse` with always-sufficient fuel (each recursive call of the Python
parser strictly shortens the string, so `length + 1` levels suffice). -/
def parseTop (s : List Char) : Option Expr := parse (s.length + 1) s

/-! ## The search engine (`expr_generator.py`) -/

/-- `ExpressionGenerator.UNARY_OPS = ['!', 'sqrt', 'neg']`. -/
def UNARY_OPS : List (List Char) := [['!'], ['s', 'q', 'r', 't'], ['n', 'e', 'g']]

/-- `ExpressionGenerator.BINARY_OPS = ['+', '-', '*', '/', '^', '%']`. -/
def BINARY_OPS : List (List Char) := [['+'], ['-'], ['*'], ['/'], ['^'], ['%']]

/-- Occurrences of a character in a string (`str.count` with a one-character
pattern; the seed pattern `str(seed)` is always a single digit character). -/
def countChar (c : Char) (s : List Char) : Nat := s.count c

/-- Python `str.split()`: split on whitespace runs, dropping empty parts. -/
def splitWsAux : List Char → List Char → List (List Char)
  | [], acc => if acc = [] then [] else [acc.reverse]
  | c :: rest, acc =>
    if c.isWhitespace then
      if acc = [] then splitWsAux rest [] else acc.reverse :: splitWsAux rest []
    else splitWsAux rest (c :: acc)

/-- Python `str.split()`. -/
def pySplitWs (s : List Char) : List (List Char) := splitWsAux s []

/-- `ExpressionGenerator._count_seed_digits`: replace parentheses by spaces,
split on whitespace, skip parts equal to an operator string, and sum the
occurrences of the seed digit character in the remaining parts. -/
def countSeedDigits (seed : Nat) (s : List Char) : Nat :=
  let parts := pySplitWs (s.map fun c => if c = '(' ∨ c = ')' then ' ' else c)
  (parts.map fun p =>
    if p ∈ UNARY_OPS ++ BINARY_OPS then 0 else countChar (digitChar seed) p).sum

/-- Substring containment, Python `pat in s`. -/
def containsSub (s pat : List Char) : Bool :=
  (List.range (s.length + 1)).any fun i => (s.drop i).take pat.length = pat

/-- `ExpressionGenerator._calculate_complexity`: the length of the rendered
string, and the number of distinct operator strings occurring in it as
substrings. -/
def calcComplexity (e : Expr) : Nat × Nat :=
  let s := render e
  (s.length, ((UNARY_OPS ++ BINARY_OPS).filter fun op => containsSub s op).length)

/-- The `PuzzleSolution` dataclass (`complexity_score` is a float whose
value is always a string length, modelled as `Nat`). -/
structure PuzzleSolution where
  seed : Nat
  target : ℤ
  expression : List Char
  complexity : Nat
  uniqueOperators : Nat
deriving DecidableEq, Repr

/-- The mutable search state of an `ExpressionGenerator`:
`_tried_combinations`, `_solutions` and `_consecutive_duplicates`. -/
structure SearchState where
  tried : List (List Char)
  solutions : ℤ → Option PuzzleSolution
  consecutiveDuplicates : Nat

/-- The fresh state built by `ExpressionGenerator.__init__`. -/
def initialSearchState : SearchState := ⟨[], fun _ => none, 0⟩

/-- `f"-({expr_str})"`. -/
def wrapNeg (s : List Char) : List Char := '-' :: '(' :: (s ++ [')'])

/-- One candidate examination of `_generate_puzzle_random` (the loop body,
lines 71–122 of `expr_generator.py`; the genetic strategy repeats the same
acceptance block verbatim at lines 143–192, plus weight bookkeeping that
does not affect acceptance): skip and count strings already tried; record
the string as tried; discard evaluation failures; require exactly 4 seed
digits in the rendered string; require an integral result whose absolute
value lies in the target range; wrap negative results in an outer negation,
recomputing the complexity on the wrapped string; store and return the
solution only when no solution exists for the target or the new complexity
is strictly lower. -/
def processCandidate (seed : Nat) (minT maxT : ℤ) (st : SearchState) (e : Expr) :
    SearchState × Option PuzzleSolution :=
  let exprStr := render e
  if exprStr ∈ st.tried then
    ({ st with consecutiveDuplicates := st.consecutiveDuplicates + 1 }, none)
  else
    let st1 := { st with tried := exprStr :: st.tried }
    match evaluate e with
    | none => (st1, none)
    | some result =>
      if countSeedDigits seed exprStr ≠ 4 then (st1, none)
      else
        match (if isIntegerQ result then some (truncQ result) else none) with
        | none => (st1, none)
        | some resultInt =>
          let absResult := |resultInt|
          if minT ≤ absResult ∧ absResult ≤ maxT then
            let target := absResult
            let exprStr2 := if resultInt < 0 then wrapNeg exprStr else exprStr
            let complexity :=
              if resultInt < 0 then (wrapNeg exprStr).length else (calcComplexity e).1
            let sol : PuzzleSolution :=
              ⟨seed, target, exprStr2, complexity,
                (calcComplexity e).2 + (if resultInt < 0 then 1 else 0)⟩
            let better :=
              match st1.solutions target with
              | none => true
              | some old => decide (sol.complexity < old.complexity)
            if better then
              ({ st1 with
                  solutions := fun t => if t = target then some sol else st1.solutions t,
                  consecutiveDuplicates := 0 }, some sol)
            else (st1, none)
          else (st1, none)

/-- The attempt loop of `_generate_puzzle_random`; randomness (leaf sampling
and tree construction) is modelled by the explicit list of candidate trees
the attempts draw. -/
def generatePuzzleRandom (seed : Nat) (minT maxT : ℤ) :
    SearchState → List Expr → SearchState × Option PuzzleSolution
  | st, [] => (st, none)
  | st, e :: rest =>
    match processCandidate seed minT maxT st e with
    | (st', some sol) => (st', some sol)
    | (st', none) => generatePuzzleRandom seed minT maxT st' rest

/-- The module-level flag `USE_GENETIC = False` of `expr_generator.py`
(line 19). -/
def USE_GENETIC : Bool := false

/-- The two search strategies `generate_puzzle` can dispatch to. -/
inductive Strategy where
  | randomSearch
  | genetic
deriving DecidableEq, Repr

/-- The per-instance configuration fields set in
`ExpressionGenerator.__init__` (`self.USE_GENETIC = True`,
`self.MAX_DEPTH = None`). -/
structure GeneratorConfig where
  seed : Nat
  useGeneticField : Bool
  maxDepthField : Option Nat
deriving DecidableEq, Repr

/-- `ExpressionGenerator.__init__`: sets `self.USE_GENETIC = True`. -/
def mkGeneratorConfig (seed : Nat) : GeneratorConfig := ⟨seed, true, none⟩

/-- The strategy `generate_puzzle` dispatches to.  In the Python source the
branch reads `if USE_GENETIC:` — a bare name inside a method body, which by
Python scoping resolves to the module-level global (line 19), not to the
instance attribute `self.USE_GENETIC` assigned in `__init__`. -/
def generatePuzzleStrategy : Strategy :=
  if USE_GENETIC then .genetic else .randomSearch

/-! ## The leaf-combination generator (`leaf_nodes.py`) -/

/-- `Decimal(self.seed)`. -/
def singleLit (d : Nat) : DecLit := ⟨false, [d], []⟩

/-- `Decimal('.' + s)` (stored by `Decimal` as `0.<digit>`). -/
def dotSingleLit (d : Nat) : DecLit := ⟨false, [0], [d]⟩

/-- The nine decimal forms built by `_add_decimals` (leading-dot forms are
stored by `Decimal` with a `0` integer part). -/
def decimalForms (d : Nat) : List DecLit :=
  [⟨false, [0], [d]⟩, ⟨false, [0], [d, d]⟩, ⟨false, [0], [d, d, d]⟩,
   ⟨false, [d], [d]⟩,
   ⟨false, [d, d], [d]⟩, ⟨false, [d], [d, d]⟩,
   ⟨false, [d, d, d], [d]⟩, ⟨false, [d, d], [d, d]⟩, ⟨false, [d], [d, d, d]⟩]

/-- `LeafNodeGenerator._generate_all_combinations`: the single-digit
four-tuple, the two concatenated forms, and for each decimal form the
combinations filling the remaining digit budget with single digits (plus,
when exactly one digit remains, the leading-dot single). -/
def leafCombos (seed : Nat) : List (List DecLit) :=
  let d := seed
  let single := singleLit d
  let base : List (List DecLit) :=
    [List.replicate 4 single,
     [⟨false, [d, d], []⟩, single, single],
     [⟨false, [d, d, d], []⟩, single]]
  let dec : List (List DecLit) :=
    (decimalForms d).flatMap fun form =>
      let seedCount := countChar (digitChar seed) (renderLit form)
      let remaining : ℤ := 4 - (seedCount : ℤ)
      if 0 < remaining then
        ([form] ++ List.replicate remaining.toNat single) ::
          (if remaining = 1 then [[form, dotSingleLit d]] else [])
      else if remaining = 0 then [[form]]
      else []
  base ++ dec

/-- The pool of literal values a strategy-built tree's leaves can hold
(every tree the random or genetic strategy builds has its `NumberNode`
values drawn from some seed's leaf combinations; mutation changes only
operators and crossover only rearranges subtrees). -/
def litPool (seed : Nat) : List DecLit :=
  [singleLit seed, ⟨false, [seed, seed], []⟩, ⟨false, [seed, seed, seed], []⟩,
   dotSingleLit seed] ++ decimalForms seed

/-- A tree whose leaves all come from some seed's literal pool — the trees
the random and genetic strategies can build. -/
def BuildableLeaves : Expr → Prop
  | .num l => ∃ s, 1 ≤ s ∧ s ≤ 9 ∧ l ∈ litPool s
  | .unary _ x => BuildableLeaves x
  | .binary _ l r => BuildableLeaves l ∧ BuildableLeaves r

/-- `BuildableLeaves` is decidable (a finite seed range suffices). -/
def decBuildable : ∀ e, Decidable (BuildableLeaves e)
  | .num l => by
    unfold BuildableLeaves
    exact decidable_of_iff (∃ s ∈ List.range 10, 1 ≤ s ∧ l ∈ litPool s) (by
      constructor
      · rintro ⟨s, hs, h1, h2⟩
        exact ⟨s, h1, by simpa using Nat.lt_succ_iff.mp (List.mem_range.mp hs), h2⟩
      · rintro ⟨s, h1, h9, h2⟩
        exact ⟨s, List.mem_range.mpr (Nat.lt_succ_of_le h9), h1, h2⟩)
  | .unary _ x => decBuildable x
  | .binary _ l r =>
    have := decBuildable l
    have := decBuildable r
    by unfold BuildableLeaves; infer_instance

instance (e : Expr) : Decidable (BuildableLeaves e) := decBuildable e

/-! ## The hint generator (`HintGenerator` in `hint_generator.py`) -/

/-- The string form of a leaf value used for hints
(`float` conversion, printed via `str(int(val))` when integral).  The
non-integral branch (`str(float)`, a shortest float representation) is
modelled by the decimal literal string itself; the verified concrete claim
exercises only the integral branch. -/
def leafStr (l : DecLit) : List Char :=
  if l.fp.all (fun d => d = 0) then
    (if l.sign then ['-'] else []) ++ (normIp l.ip).map digitChar
  else renderLit l

/-- `_get_leaf_values` collection (before set/sort). -/
def collectLeafVals : Expr → List (List Char)
  | .num l => [leafStr l]
  | .unary _ x => collectLeafVals x
  | .binary _ l r => collectLeafVals l ++ collectLeafVals r

/-- The hint string of a unary operator (`neg` is reported as `-`). -/
def uopStr : UOp → List Char
  | .factOp => ['!']
  | .sqrtOp => ['s', 'q', 'r', 't']
  | .negOp => ['-']

/-- `_get_operators` collection (before set/sort). -/
def collectOps : Expr → List (List Char)
  | .num _ => []
  | .unary op x => uopStr op :: collectOps x
  | .binary op l r => [bopChar op] :: (collectOps l ++ collectOps r)

/-- `_get_subtrees` collection: rendered strings of all non-number nodes
(before set/sort). -/
def collectSubtrees : Expr → List (List Char)
  | .num _ => []
  | .unary op x => render (.unary op x) :: collectSubtrees x
  | .binary op l r => render (.binary op l r) :: (collectSubtrees l ++ collectSubtrees r)

/-- Python string comparison: lexicographic on code points. -/
def lexLe : List Char → List Char → Bool
  | [], _ => true
  | _ :: _, [] => false
  | a :: as_, b :: bs =>
    if a.toNat < b.toNat then true
    else if b.toNat < a.toNat then false
    else lexLe as_ bs

/-- Length comparison (`sorted(key=len)`). -/
def lenLe (a b : List Char) : Bool := a.length ≤ b.length

/-- Stable insertion into a sorted list. -/
def insertLe (le : List Char → List Char → Bool) (x : List Char) :
    List (List Char) → List (List Char)
  | [] => [x]
  | y :: ys => if le x y then x :: y :: ys else y :: insertLe le x ys

/-- Stable insertion sort, modelling Python `sorted`. -/
def isort (le : List Char → List Char → Bool) : List (List Char) → List (List Char)
  | [] => []
  | x :: xs => insertLe le x (isort le xs)

/-- The `ExpressionHints` dataclass. -/
structure ExpressionHints where
  leafValues : List (List Char)
  operators : List (List Char)
  subtrees : List (List Char)
deriving DecidableEq, Repr

/-- `HintGenerator.generate_hints`: parse the expression string, then
collect sorted distinct leaf values, sorted distinct operators, and the
distinct non-trivial subtree strings sorted by length with the final (full)
string removed.  (Python materialises the collections as `set`s before
sorting; set iteration order is modelled as first-traversal order, which
affects only the tie order of equal-length subtree strings.) -/
def generateHints (s : List Char) : Option ExpressionHints :=
  match parseTop s with
  | none => none
  | some ast =>
    some ⟨isort lexLe (collectLeafVals ast).dedup,
          isort lexLe (collectOps ast).dedup,
          (isort lenLe (collectSubtrees ast).dedup).dropLast⟩

/-! ## Claim C7: double negation always fails -/

/-- C7: for every operand tree `X`, evaluating `negate(negate(X))` raises an
evaluation failure: the outer `neg` branch rejects an operand that is itself
a `neg` node (and if the operand's own evaluation already failed, the
failure propagates), so no value is ever returned. -/
theorem c7_double_negation_fails (X : Expr) :
    evaluate (.unary .negOp (.unary .negOp X)) = none := by
  cases h : evaluate (.unary .negOp X)
  all_goals simp [evaluate, h, Expr.isNegNode]

/-! ## Claim C8: exponent range guard -/

/-- C8: evaluating a `^` node whose successfully evaluated exponent exceeds
`MAX_EXPONENT = 20` fails: the exponent guard is the first check of the `^`
branch (and if the base's evaluation failed, the failure propagates). -/
theorem c8_exponent_guard (l r : Expr) (v : ℚ)
    (hr : evaluate r = some v) (hv : (20 : ℚ) < v) :
    evaluate (.binary .powOp l r) = none := by
  cases hl : evaluate l with
  | none => simp [evaluate, hl]
  | some lv =>
    have : v > MAX_EXPONENT := by simpa [MAX_EXPONENT] using hv
    simp [evaluate, hl, hr, this]

/-- C8 witness: `BinaryOp('^', 2, 21)` fails because the exponent `21`
exceeds `20`. -/
theorem c8_exponent_guard_witness :
    evaluate (.binary .powOp (.num ⟨false, [2], []⟩) (.num ⟨false, [2, 1], []⟩)) = none :=
  c8_exponent_guard _ _ 21 (by norm_num [evaluate, litVal, List.foldl]) (by norm_num)

/-! ## Claim C6: every leaf combination uses the seed digit exactly 4 times -/

/-- C6: for every seed in `1..9` and every combination produced by
`LeafNodeGenerator._generate_all_combinations`, the occurrences of the seed
digit character summed over the literals' decimal string forms equal 4. -/
theorem c6_leaf_combination_digit_count (seed : Nat) (h1 : 1 ≤ seed) (h9 : seed ≤ 9) :
    ∀ combo ∈ leafCombos seed,
      (combo.map fun l => countChar (digitChar seed) (renderLit l)).sum = 4 := by
  interval_cases seed <;> decide

/-- C6 witness: the combination `[55, 5, 5]` for seed 5 uses the digit `5`
exactly 4 times. -/
theorem c6_leaf_combination_digit_count_witness :
    (([⟨false, [5, 5], []⟩, singleLit 5, singleLit 5] : List DecLit).map
      fun l => countChar (digitChar 5) (renderLit l)).sum = 4 :=
  c6_leaf_combination_digit_count 5 (by decide) (by decide) _ (by decide)

/-! ## Claim C10: `generate_puzzle` dispatches on the module-level flag -/

/-- C10: `generate_puzzle` branches on the module-level constant
`USE_GENETIC` (which is `False`), not on the per-instance field
`self.USE_GENETIC` set to `True` in `__init__`; consequently the dispatch
always selects the random strategy and never the genetic one. -/
theorem c10_strategy_dispatch :
    USE_GENETIC = false ∧
    (∀ seed, (mkGeneratorConfig seed).useGeneticField = true) ∧
    generatePuzzleStrategy = Strategy.randomSearch :=
  ⟨rfl, fun _ => rfl, rfl⟩

/-! ## Claim C9: hint extraction on `((1 + 1) * (1 + 1))` -/

/-- The concrete input of claim C9. -/
def c9Input : List Char :=
  ['(', '(', '1', ' ', '+', ' ', '1', ')', ' ', '*', ' ',
   '(', '1', ' ', '+', ' ', '1', ')', ')']

/-- C9: `generate_hints` on `((1 + 1) * (1 + 1))` succeeds with leaf values
`["1"]`, operators `["*", "+"]`, and the non-empty subtree list
`["(1 + 1)"]`, which is ordered by increasing length and does not contain
the full expression string. -/
theorem c9_concrete_hints :
    ∃ h, generateHints c9Input = some h ∧
      h.leafValues = [['1']] ∧
      h.operators = [['*'], ['+']] ∧
      h.subtrees = [['(', '1', ' ', '+', ' ', '1', ')']] ∧
      h.subtrees ≠ [] ∧
      c9Input ∉ h.subtrees ∧
      h.subtrees.Pairwise fun a b => a.length ≤ b.length := by
  refine ⟨⟨[['1']], [['*'], ['+']], [['(', '1', ' ', '+', ' ', '1', ')']]⟩,
    by decide, rfl, rfl, rfl, by decide, by decide, by decide⟩

/-! ## Claim C3: the 1e20 magnitude bound

The claim quantifies over *every* expression tree, but
`NumberNode.evaluate` returns its stored value without any magnitude check,
so a tree whose literal already exceeds `1e20` evaluates successfully to a
value above the bound.  For trees whose literals are within the bound — in
particular every tree the program itself builds, since all leaf literals
are at most `999.9` — the invariant does hold: every other evaluation path
either returns a bounded fixed point, negates a bounded operand, or passes
its result through `_check_overflow`. -/

/-- A number literal with value `10^21`. -/
def bigLit : DecLit := ⟨false, 1 :: List.replicate 21 0, []⟩

/-- C3 counterexample: evaluating the bare literal `10^21` succeeds and
returns a value whose absolute value exceeds `1e20`, because
`NumberNode.evaluate` performs no overflow check. -/
theorem c3_counterexample :
    evaluate (.num bigLit) = some ((10 : ℚ) ^ 21) ∧
      ¬ |(10 : ℚ) ^ 21| ≤ MAX_NUMBER := by
  constructor
  · norm_num [evaluate, litVal, bigLit, List.replicate, List.foldl]
  · rw [abs_of_nonneg (by positivity), MAX_NUMBER]
    push_neg
    exact pow_lt_pow_right₀ (by norm_num) (by norm_num)

/-- All number literals of the tree are within the magnitude bound. -/
def LeavesBounded : Expr → Prop
  | .num l => |litVal l| ≤ MAX_NUMBER
  | .unary _ x => LeavesBounded x
  | .binary _ l r => LeavesBounded l ∧ LeavesBounded r

/-- `s` occurs as a subtree of `t` (including `t` itself). -/
def Subtree (s : Expr) : Expr → Prop
  | .num l => s = .num l
  | .unary op x => s = .unary op x ∨ Subtree s x
  | .binary op l r => s = .binary op l r ∨ Subtree s l ∨ Subtree s r

/-- `_check_overflow` only lets bounded values through, unchanged. -/
theorem checkOverflow_some {u v : ℚ} (h : checkOverflow u = some v) :
    v = u ∧ |v| ≤ MAX_NUMBER := by
  unfold checkOverflow at h
  split at h
  · exact absurd h (by simp)
  · next hle => cases h; exact ⟨rfl, le_of_not_lt hle⟩

/-- Successful evaluation of a tree with bounded literals yields a bounded
value. -/
theorem eval_bounded : ∀ t, LeavesBounded t → ∀ v, evaluate t = some v →
    |v| ≤ MAX_NUMBER := by
  intro t
  induction t with
  | num l =>
    intro hb v hv
    simp only [evaluate, Option.some.injEq] at hv
    exact hv ▸ hb
  | unary op x ih =>
    intro hb v hv
    simp only [evaluate, Option.bind_eq_bind, Option.bind_eq_some] at hv
    obtain ⟨w, hw, hv⟩ := hv
    have hwb := ih hb w hw
    cases op
    · simp only at hv
      split at hv
      · next h1 =>
        cases hv
        exact hwb
      · split at hv
        · exact absurd hv (by simp)
        · split at hv
          · exact absurd hv (by simp)
          · split at hv
            · exact absurd hv (by simp)
            · exact (checkOverflow_some hv).2
    · simp only at hv
      split at hv
      · next h1 =>
        cases hv
        rcases h1 with h | h
        all_goals simp only [h, MAX_NUMBER, abs_zero, abs_one]
        all_goals norm_num
      · split at hv
        · exact absurd hv (by simp)
        · exact (checkOverflow_some hv).2
    · simp only at hv
      split at hv
      · exact absurd hv (by simp)
      · cases hv
        simpa using hwb
  | binary op l r ihl ihr =>
    intro hb v hv
    simp only [evaluate, Option.bind_eq_bind, Option.bind_eq_some] at hv
    obtain ⟨lv, hlv, hv⟩ := hv
    obtain ⟨rv, hrv, hv⟩ := hv
    cases op <;> simp only at hv
    · exact (checkOverflow_some hv).2
    · exact (checkOverflow_some hv).2
    · exact (checkOverflow_some hv).2
    · split at hv
      · exact absurd hv (by simp)
      · exact (checkOverflow_some hv).2
    · split at hv
      · exact absurd hv (by simp)
      · split at hv
        · exact absurd hv (by simp)
        · split at hv
          · exact absurd hv (by simp)
          · split at hv
            · split at hv
              · exact absurd hv (by simp)
              · exact (checkOverflow_some hv).2
            · split at hv
              · exact absurd hv (by simp)
              · exact (checkOverflow_some hv).2
    · split at hv
      · exact absurd hv (by simp)
      · split at hv
        · exact absurd hv (by simp)
        · exact (checkOverflow_some hv).2

/-- A subtree of a tree with bounded literals has bounded literals. -/
theorem leavesBounded_subtree : ∀ t, LeavesBounded t → ∀ s, Subtree s t →
    LeavesBounded s := by
  intro t
  induction t with
  | num l => intro hb s hs; cases hs; exact hb
  | unary op x ih =>
    intro hb s hs
    rcases hs with h | h
    · exact h ▸ hb
    · exact ih hb s h
  | binary op l r ihl ihr =>
    intro hb s hs
    rcases hs with h | h | h
    · exact h ▸ hb
    · exact ihl hb.1 s h
    · exact ihr hb.2 s h

/-- C3 amended: for every expression tree all of whose number literals are
within the `1e20` bound (which holds for every tree the program builds),
the final value and every intermediate value — the value of every evaluated
subtree — has absolute value at most `1e20`; every evaluation step that
would produce a larger magnitude fails via `_check_overflow`. -/
theorem c3_amended_magnitude_bound (t : Expr) (hb : LeavesBounded t) :
    ∀ s, Subtree s t → ∀ v, evaluate s = some v → |v| ≤ MAX_NUMBER :=
  fun s hs v hv => eval_bounded s (leavesBounded_subtree t hb s hs) v hv

/-- C3 amended witness: the tree `(1 + 1)` has bounded literals, its
subtree `1` evaluates to `1`, and `|1| ≤ 1e20`. -/
theorem c3_amended_magnitude_bound_witness :
    |(1 : ℚ)| ≤ MAX_NUMBER :=
  c3_amended_magnitude_bound
    (.binary .add (.num ⟨false, [1], []⟩) (.num ⟨false, [1], []⟩))
    (by refine ⟨?_, ?_⟩ <;> norm_num [LeavesBounded, litVal, MAX_NUMBER, List.foldl])
    (.num ⟨false, [1], []⟩) (Or.inr (Or.inl rfl)) 1
    (by norm_num [evaluate, litVal, List.foldl])

/-! ## Claims C2 and C5: the acceptance contract of the search engine

First, the convoluted `_count_seed_digits` (replace parentheses by spaces,
split on whitespace, skip operator parts) counts exactly the occurrences of
the seed digit character in the whole string: the characters it discards —
parentheses and whitespace — are never the seed digit, and the skipped
operator parts contain no digit characters at all. -/

theorem countChar_splitWsAux (c : Char) (hc : c.isWhitespace = false) :
    ∀ s acc, ((splitWsAux s acc).map (countChar c)).sum =
      countChar c s + countChar c acc := by
  intro s
  induction s with
  | nil =>
    intro acc
    by_cases h : acc = ([] : List Char)
    · simp [splitWsAux, h, countChar]
    · simp [splitWsAux, h, countChar, List.count_reverse]
  | cons x rest ih =>
    intro acc
    by_cases hx : x.isWhitespace
    · have hxc : ¬ x = c := by
        intro he
        rw [← he, hx] at hc
        exact Bool.noConfusion hc
      have hcx : List.count c (x :: rest) = List.count c rest := by
        simp [List.count_cons, hxc]
      by_cases h : acc = ([] : List Char)
      · subst h
        rw [show splitWsAux (x :: rest) ([] : List Char) = splitWsAux rest [] by
          simp [splitWsAux, hx]]
        rw [ih []]
        simp [countChar, hcx]
      · rw [show splitWsAux (x :: rest) acc = acc.reverse :: splitWsAux rest [] by
          simp [splitWsAux, hx, h]]
        simp only [List.map_cons, List.sum_cons]
        rw [ih []]
        simp only [countChar, hcx, List.count_reverse, List.count_nil]
        omega
    · rw [show splitWsAux (x :: rest) acc = splitWsAux rest (x :: acc) by
        simp [splitWsAux, hx]]
      rw [ih (x :: acc)]
      simp only [countChar, List.count_cons]
      omega

/-- Replacing parentheses by spaces does not change the count of a
character that is neither a parenthesis nor a space. -/
theorem countChar_parenMap (c : Char) (h1 : c ≠ '(') (h2 : c ≠ ')') (h3 : c ≠ ' ') :
    ∀ s, countChar c (s.map fun x => if x = '(' ∨ x = ')' then ' ' else x) =
      countChar c s := by
  intro s
  induction s with
  | nil => rfl
  | cons x rest ih =>
    simp only [List.map_cons, countChar, List.count_cons] at ih ⊢
    rw [ih]
    by_cases hx : x = '(' ∨ x = ')'
    · have hxc : ¬ x = c := by
        intro he
        subst he
        rcases hx with h | h
        · exact h1 h
        · exact h2 h
      have hxb : (x == c) = false := beq_eq_false_iff_ne.mpr hxc
      have hsb : (' ' == c) = false := beq_eq_false_iff_ne.mpr fun he => h3 he.symm
      rw [if_pos hx]
      simp [hxb, hsb]
    · rw [if_neg hx]

/-- No operator string contains a digit character `'1'`–`'9'`. -/
theorem opStrings_no_seed (seed : Nat) (h1 : 1 ≤ seed) (h9 : seed ≤ 9) :
    ∀ p ∈ UNARY_OPS ++ BINARY_OPS, countChar (digitChar seed) p = 0 := by
  interval_cases seed <;> decide

/-- Character facts about the seed digit character. -/
theorem digitChar_facts (seed : Nat) (h1 : 1 ≤ seed) (h9 : seed ≤ 9) :
    (digitChar seed).isWhitespace = false ∧ digitChar seed ≠ '(' ∧
      digitChar seed ≠ ')' ∧ digitChar seed ≠ ' ' := by
  interval_cases seed <;> decide

/-- `_count_seed_digits` equals the plain count of the seed digit character
in the string. -/
theorem countSeedDigits_eq (seed : Nat) (h1 : 1 ≤ seed) (h9 : seed ≤ 9)
    (s : List Char) : countSeedDigits seed s = countChar (digitChar seed) s := by
  obtain ⟨hw, hp1, hp2, hsp⟩ := digitChar_facts seed h1 h9
  have hmaps : ∀ p ∈ pySplitWs (s.map fun c => if c = '(' ∨ c = ')' then ' ' else c),
      (if p ∈ UNARY_OPS ++ BINARY_OPS then 0
        else countChar (digitChar seed) p) = countChar (digitChar seed) p := by
    intro p _
    by_cases hop : p ∈ UNARY_OPS ++ BINARY_OPS
    · rw [if_pos hop, opStrings_no_seed seed h1 h9 p hop]
    · rw [if_neg hop]
  simp only [countSeedDigits]
  rw [List.map_congr_left hmaps]
  rw [show pySplitWs (s.map fun c => if c = '(' ∨ c = ')' then ' ' else c) =
      splitWsAux (s.map fun c => if c = '(' ∨ c = ')' then ' ' else c) [] from rfl]
  rw [countChar_splitWsAux _ hw]
  simp only [countChar, List.count_nil, Nat.add_zero]
  exact countChar_parenMap _ hp1 hp2 hsp s

/-- Wrapping in an outer negation does not change the seed digit count. -/
theorem countChar_wrapNeg (c : Char) (h1 : c ≠ '-') (h2 : c ≠ '(') (h3 : c ≠ ')')
    (s : List Char) : countChar c (wrapNeg s) = countChar c s := by
  simp [wrapNeg, countChar, List.count_cons, List.count_append,
    Ne.symm h1, Ne.symm h2, Ne.symm h3]

/-- The recorded complexity the claim describes: the rendered string's
length, or the wrapped string's length when the integer result was
negative. -/
def claimedComplexity (e : Expr) (ri : ℤ) : Nat :=
  if ri < 0 then (wrapNeg (render e)).length else (render e).length

/-- C2: for a fresh candidate (its canonical string not yet tried), the
per-candidate step of the search engine returns a recorded `Solution`
exactly when (1) the canonical string contains the seed digit character
exactly 4 times, (2) evaluation succeeds with an integral value, (3) the
absolute value of that integer lies in the configured target range, and
(4) no solution is stored yet for that target or the new complexity —
the wrapped string's length when the integer is negative, the plain
length otherwise — is strictly lower; moreover any returned solution
carries exactly the described target, expression, and complexity, and is
stored in the solution map. -/
theorem c2_acceptance_contract (seed : Nat) (h1 : 1 ≤ seed) (h9 : seed ≤ 9)
    (minT maxT : ℤ) (st : SearchState) (e : Expr)
    (hfresh : render e ∉ st.tried) :
    ((processCandidate seed minT maxT st e).2.isSome ↔
      (countChar (digitChar seed) (render e) = 4 ∧
        ∃ v, evaluate e = some v ∧ isIntegerQ v ∧
          minT ≤ |truncQ v| ∧ |truncQ v| ≤ maxT ∧
          ∀ old, st.solutions |truncQ v| = some old →
            claimedComplexity e (truncQ v) < old.complexity)) ∧
    (∀ sol, (processCandidate seed minT maxT st e).2 = some sol →
      ∃ v, evaluate e = some v ∧ isIntegerQ v ∧
        sol.seed = seed ∧ sol.target = |truncQ v| ∧
        sol.expression =
          (if truncQ v < 0 then wrapNeg (render e) else render e) ∧
        sol.complexity = claimedComplexity e (truncQ v) ∧
        (processCandidate seed minT maxT st e).1.solutions (|truncQ v|) = some sol) := by
  have hcnt := countSeedDigits_eq seed h1 h9 (render e)
  unfold processCandidate
  rw [if_neg hfresh]
  cases hev : evaluate e with
  | none =>
    simp [hev]
  | some result =>
    dsimp only
    by_cases hc4 : countSeedDigits seed (render e) = 4
    · rw [if_neg (not_not_intro hc4)]
      by_cases hint : isIntegerQ result
      · rw [if_pos hint]
        dsimp only
        by_cases hrange : minT ≤ |truncQ result| ∧ |truncQ result| ≤ maxT
        · rw [if_pos hrange]
          cases hold : st.solutions (|truncQ result|) with
          | none =>
            dsimp only
            rw [if_pos rfl]
            constructor
            · simp only [Option.isSome_some, eq_self_iff_true, true_iff]
              refine ⟨by rw [← hcnt, hc4], result, rfl, hint, hrange.1, hrange.2, ?_⟩
              intro old h
              exact absurd (hold.symm.trans h) (by simp)
            · intro sol hsol
              simp only [Option.some.injEq] at hsol
              subst hsol
              refine ⟨result, rfl, hint, rfl, rfl, rfl, ?_, by simp⟩
              simp [claimedComplexity, calcComplexity]
          | some old =>
            dsimp only
            by_cases hlt :
                (if truncQ result < 0 then (wrapNeg (render e)).length
                  else (calcComplexity e).1) < old.complexity
            · rw [if_pos (decide_eq_true hlt)]
              constructor
              · simp only [Option.isSome_some, eq_self_iff_true, true_iff]
                refine ⟨by rw [← hcnt, hc4], result, rfl, hint, hrange.1, hrange.2, ?_⟩
                intro old' h
                injection hold.symm.trans h with h2
                subst h2
                simpa [claimedComplexity, calcComplexity] using hlt
              · intro sol hsol
                simp only [Option.some.injEq] at hsol
                subst hsol
                refine ⟨result, rfl, hint, rfl, rfl, rfl, ?_, by simp⟩
                simp [claimedComplexity, calcComplexity]
            · rw [if_neg (by simpa using hlt)]
              constructor
              · simp only [Option.isSome_none, Bool.false_eq_true, false_iff]
                rintro ⟨-, v, hv, -, -, -, hbetter⟩
                cases hv
                have := hbetter old hold
                exact hlt (by simpa [claimedComplexity, calcComplexity] using this)
              · intro sol hsol
                exact absurd hsol (by simp)
        · rw [if_neg hrange]
          constructor
          · simp only [Option.isSome_none, Bool.false_eq_true, false_iff]
            rintro ⟨-, v, hv, -, hr1, hr2, -⟩
            cases hv
            exact hrange ⟨hr1, hr2⟩
          · intro sol hsol
            exact absurd hsol (by simp)
      · rw [if_neg hint]
        constructor
        · simp only [Option.isSome_none, Bool.false_eq_true, false_iff]
          rintro ⟨-, v, hv, hvint, -⟩
          cases hv
          exact hint hvint
        · intro sol hsol
          exact absurd hsol (by simp)
    · rw [if_pos hc4]
      constructor
      · simp only [Option.isSome_none, Bool.false_eq_true, false_iff]
        rintro ⟨h4, -⟩
        exact hc4 (by rw [hcnt, h4])
      · intro sol hsol
        exact absurd hsol (by simp)
/-- The demonstration candidate `((1 + 1) * (1 + 1))` used by witnesses. -/
def demoExpr : Expr :=
  .binary .mul (.binary .add (.num ⟨false, [1], []⟩) (.num ⟨false, [1], []⟩))
    (.binary .add (.num ⟨false, [1], []⟩) (.num ⟨false, [1], []⟩))

/-- The demonstration candidate evaluates to `4`. -/
theorem evaluate_demoExpr : evaluate demoExpr = some 4 := by
  have hl : litVal ⟨false, [1], []⟩ = 1 := by norm_num [litVal, List.foldl]
  norm_num [evaluate, demoExpr, hl, checkOverflow, MAX_NUMBER]

/-- Processing the demonstration candidate from a fresh state records the
solution for target 4. -/
theorem processCandidate_demoExpr :
    (processCandidate 1 1 100 initialSearchState demoExpr).2 =
      some ⟨1, 4, render demoExpr, 19, 2⟩ := by
  have hfresh : render demoExpr ∉ initialSearchState.tried := by
    simp [initialSearchState]
  have htr : truncQ 4 = 4 := by
    simp [truncQ]
  unfold processCandidate
  rw [if_neg hfresh, evaluate_demoExpr]
  dsimp only
  rw [if_neg (not_not_intro (by decide : countSeedDigits 1 (render demoExpr) = 4))]
  rw [if_pos (show isIntegerQ 4 by simp [isIntegerQ])]
  dsimp only
  rw [htr]
  rw [if_pos (by decide : (1 : ℤ) ≤ |(4 : ℤ)| ∧ |(4 : ℤ)| ≤ 100)]
  dsimp only [initialSearchState]
  rw [if_pos rfl]
  decide

/-- C2 witness: seed 1, range `[1, 100]`, fresh state, candidate
`((1 + 1) * (1 + 1))` — the acceptance equivalence holds at this concrete
input. -/
theorem c2_acceptance_contract_witness :
    ((processCandidate 1 1 100 initialSearchState demoExpr).2.isSome ↔
      (countChar (digitChar 1) (render demoExpr) = 4 ∧
        ∃ v, evaluate demoExpr = some v ∧ isIntegerQ v ∧
          (1 : ℤ) ≤ |truncQ v| ∧ |truncQ v| ≤ 100 ∧
          ∀ old, initialSearchState.solutions (|truncQ v|) = some old →
            claimedComplexity demoExpr (truncQ v) < old.complexity)) :=
  (c2_acceptance_contract 1 (by decide) (by decide) 1 100 initialSearchState
    demoExpr (by simp [initialSearchState])).1

/-- C5: every solution the per-candidate step records has an expression
string — including the outer negation wrapper when the result was
negative — containing exactly 4 occurrences of the seed digit character. -/
theorem c5_solution_digit_count (seed : Nat) (h1 : 1 ≤ seed) (h9 : seed ≤ 9)
    (minT maxT : ℤ) (st : SearchState) (e : Expr) (sol : PuzzleSolution)
    (hsol : (processCandidate seed minT maxT st e).2 = some sol) :
    countChar (digitChar seed) sol.expression = 4 := by
  have hfacts : digitChar seed ≠ '-' ∧ digitChar seed ≠ '(' ∧ digitChar seed ≠ ')' := by
    interval_cases seed <;> decide
  have hcnt := countSeedDigits_eq seed h1 h9 (render e)
  unfold processCandidate at hsol
  by_cases hfresh : render e ∈ st.tried
  · rw [if_pos hfresh] at hsol
    exact absurd hsol (by simp)
  · rw [if_neg hfresh] at hsol
    dsimp only at hsol
    split at hsol
    · exact absurd hsol (by simp)
    · split at hsol
      · exact absurd hsol (by simp)
      · next hc4ne =>
        have hc4 : countSeedDigits seed (render e) = 4 := not_not.mp hc4ne
        split at hsol
        · exact absurd hsol (by simp)
        · next resultInt heqInt =>
          split at hsol
          · by_cases hneg : resultInt < 0
            · simp only [if_pos hneg] at hsol
              split at hsol
              · dsimp only at hsol
                rw [Option.some_inj] at hsol
                subst hsol
                dsimp only
                rw [countChar_wrapNeg _ hfacts.1 hfacts.2.1 hfacts.2.2, ← hcnt, hc4]
              · exact absurd hsol (by simp)
            · simp only [if_neg hneg] at hsol
              split at hsol
              · dsimp only at hsol
                rw [Option.some_inj] at hsol
                subst hsol
                dsimp only
                rw [← hcnt, hc4]
              · exact absurd hsol (by simp)
          · exact absurd hsol (by simp)

/-- C5 witness: the solution recorded for the concrete candidate
`((1 + 1) * (1 + 1))` under seed 1 contains the digit `1` exactly 4
times. -/
theorem c5_solution_digit_count_witness :
    ∃ sol, (processCandidate 1 1 100 initialSearchState demoExpr).2 = some sol ∧
      countChar (digitChar 1) sol.expression = 4 :=
  ⟨_, processCandidate_demoExpr,
    c5_solution_digit_count 1 (by decide) (by decide) 1 100 initialSearchState
      demoExpr _ processCandidate_demoExpr⟩

/-! ## Parser-correctness toolkit

Infrastructure for reasoning symbolically about the scanning loops of
`parse` on rendered strings: parenthesis balance, segment matching, and
single-step evaluation lemmas for the right-to-left operator scan. -/

/-- Parenthesis contribution of one character. -/
def balC (c : Char) : ℤ := if c = '(' then 1 else if c = ')' then -1 else 0

/-- Parenthesis balance of a string. -/
def bal (s : List Char) : ℤ := (s.map balC).sum

theorem bal_nil : bal [] = 0 := rfl

theorem bal_cons (c : Char) (s : List Char) : bal (c :: s) = balC c + bal s := by
  simp [bal]

theorem bal_append (s t : List Char) : bal (s ++ t) = bal s + bal t := by
  simp [bal]

/-- Every prefix of the string has non-negative balance. -/
def NonNegPref (s : List Char) : Prop := ∀ n, 0 ≤ bal (s.take n)

/-- A character that cannot affect the operator scan: not a parenthesis
and not a binary-operator character. -/
def InertChar (c : Char) : Prop := c ≠ '(' ∧ c ≠ ')' ∧ c ∉ binChars

/-- The characters of the string `B` appear in `s` starting at index `a`. -/
def matchesAt (s : List Char) : Nat → List Char → Prop
  | _, [] => True
  | a, c :: B => s.getD a ' ' = c ∧ matchesAt s (a + 1) B

theorem matchesAt_append (s : List Char) :
    ∀ (B : List Char) (a : Nat) (C : List Char),
      matchesAt s a (B ++ C) ↔ matchesAt s a B ∧ matchesAt s (a + B.length) C := by
  intro B
  induction B with
  | nil => intro a C; simp [matchesAt]
  | cons c B ih =>
    intro a C
    rw [List.cons_append]
    simp only [matchesAt, List.length_cons, ih, and_assoc]
    constructor
    · rintro ⟨h1, h2, h3⟩
      exact ⟨h1, h2, by rwa [show a + (B.length + 1) = a + 1 + B.length by omega]⟩
    · rintro ⟨h1, h2, h3⟩
      exact ⟨h1, h2, by rwa [show a + 1 + B.length = a + (B.length + 1) by omega]⟩

theorem matchesAt_of_append (s pre B post : List Char)
    (h : s = pre ++ B ++ post) : matchesAt s pre.length B := by
  subst h
  induction B generalizing pre with
  | nil => trivial
  | cons c B ih =>
    refine ⟨?_, ?_⟩
    · rw [List.append_assoc, List.getD, List.get?_append_right (Nat.le_refl _)]
      simp
    · have := ih (pre ++ [c])
      simpa [List.append_assoc] using this

/-- A match of the whole string at position 0. -/
theorem matchesAt_refl (s : List Char) : matchesAt s 0 s := by
  simpa using matchesAt_of_append s [] s [] (by simp)

theorem matchesAt_getD (s : List Char) :
    ∀ (B : List Char) (a j : Nat), matchesAt s a B → j < B.length →
      s.getD (a + j) ' ' = B.getD j ' ' := by
  intro B
  induction B with
  | nil => intro a j _ hj; simp at hj
  | cons c B ih =>
    intro a j hm hj
    cases j with
    | zero => simpa using hm.1
    | succ j =>
      have := ih (a + 1) j hm.2 (by simpa using hj)
      simpa [show a + (j + 1) = a + 1 + j by omega] using this

/-! ### Single steps of the right-to-left operator scan -/

theorem scanAux_zero (s band : List Char) (d : ℤ) : scanAux s band 0 d = none := rfl

theorem scanAux_open (s band : List Char) (i : Nat) (d : ℤ)
    (h : s.getD i ' ' = '(') : scanAux s band (i + 1) d = scanAux s band i (d + 1) := by
  simp only [scanAux]
  rw [h]
  simp

theorem scanAux_close (s band : List Char) (i : Nat) (d : ℤ)
    (h : s.getD i ' ' = ')') : scanAux s band (i + 1) d = scanAux s band i (d - 1) := by
  simp only [scanAux]
  rw [h]
  simp

theorem scanAux_pass (s band : List Char) (i : Nat) (d : ℤ)
    (h1 : s.getD i ' ' ≠ '(') (h2 : s.getD i ' ' ≠ ')')
    (h3 : d ≠ 0 ∨ s.getD i ' ' ∉ band) :
    scanAux s band (i + 1) d = scanAux s band i d := by
  rcases h3 with h3 | h3
  · simp only [scanAux, if_neg h1, if_neg h2]
    rw [if_neg (by tauto)]
  · simp only [scanAux, if_neg h1, if_neg h2]
    rw [if_neg (by tauto)]

theorem scanAux_hit (s band : List Char) (i : Nat)
    (h1 : s.getD i ' ' ≠ '(') (h2 : s.getD i ' ' ≠ ')')
    (h3 : s.getD i ' ' ∈ band)
    (h4 : ¬ ((s.getD i ' ' = '+' ∨ s.getD i ' ' = '-') ∧ 0 < i ∧
      (s.getD (i - 1) ' ').isDigit ∧ i + 1 < s.length ∧ (s.getD (i + 1) ' ').isDigit))
    (h5 : ¬ (s.getD i ' ' = '-' ∧ (i = 0 ∨ s.getD (i - 1) ' ' ∈ skipSet))) :
    scanAux s band (i + 1) 0 = some i := by
  simp only [scanAux, if_neg h1, if_neg h2]
  rw [if_pos (And.intro trivial h3), if_neg h4, if_neg h5]

/-- Skip a run of inert characters. -/
theorem scanAux_skip_inert (s band : List Char) (hband : band ⊆ binChars) :
    ∀ (B : List Char) (a : Nat) (d : ℤ), (∀ c ∈ B, InertChar c) →
      matchesAt s a B → scanAux s band (a + B.length) d = scanAux s band a d := by
  intro B
  induction B using List.reverseRecOn with
  | nil => intro a d _ _; rfl
  | append_singleton B c ih =>
    intro a d hin hm
    rw [matchesAt_append] at hm
    have hc : s.getD (a + B.length) ' ' = c := hm.2.1
    have hic : InertChar c := hin c (by simp)
    have hlen : a + (B ++ [c]).length = (a + B.length) + 1 := by
      simp only [List.length_append, List.length_cons, List.length_nil]
      omega
    rw [hlen, scanAux_pass s band (a + B.length) d
      (by rw [hc]; exact hic.1) (by rw [hc]; exact hic.2.1)
      (Or.inr (by rw [hc]; exact fun hmem => hic.2.2 (hband hmem)))]
    exact ih a d (fun x hx => hin x (by simp [hx])) hm.1

/-! ### Character classes -/

theorem isDigit_ne_of_not_digit (c : Char) (h : c.isDigit = true) (d : Char)
    (hd : d.isDigit = false) : c ≠ d := fun he => by
  rw [he, hd] at h
  exact Bool.noConfusion h

theorem isDigit_not_ws (c : Char) (h : c.isDigit = true) : c.isWhitespace = false := by
  cases hw : c.isWhitespace
  · rfl
  · exfalso
    rw [Char.isWhitespace] at hw
    simp only [Bool.or_eq_true, decide_eq_true_eq] at hw
    rcases hw with ((he | he) | he) | he <;> rw [he] at h <;> exact Bool.noConfusion h

theorem digit_ne_all (a : Char) (ha : a.isDigit = true) :
    a ≠ '(' ∧ a ≠ ')' ∧ a ≠ '+' ∧ a ≠ '-' ∧ a ≠ '*' ∧ a ≠ '/' ∧ a ≠ '^' ∧
      a ≠ '%' ∧ a ≠ '!' ∧ a ≠ '.' ∧ a ≠ 's' ∧ a ≠ ' ' :=
  ⟨isDigit_ne_of_not_digit a ha _ (by decide), isDigit_ne_of_not_digit a ha _ (by decide),
   isDigit_ne_of_not_digit a ha _ (by decide), isDigit_ne_of_not_digit a ha _ (by decide),
   isDigit_ne_of_not_digit a ha _ (by decide), isDigit_ne_of_not_digit a ha _ (by decide),
   isDigit_ne_of_not_digit a ha _ (by decide), isDigit_ne_of_not_digit a ha _ (by decide),
   isDigit_ne_of_not_digit a ha _ (by decide), isDigit_ne_of_not_digit a ha _ (by decide),
   isDigit_ne_of_not_digit a ha _ (by decide), isDigit_ne_of_not_digit a ha _ (by decide)⟩

theorem inert_of_digit (c : Char) (h : c.isDigit = true) : InertChar c := by
  obtain ⟨e1, e2, e3, e4, e5, e6, e7, e8, -⟩ := digit_ne_all c h
  exact ⟨e1, e2, by simp [binChars, e3, e4, e5, e6, e7, e8]⟩

theorem digitChar_isDigit (d : Nat) (h : d < 10) : (digitChar d).isDigit = true := by
  interval_cases d <;> decide

theorem digitVal_digitChar (d : Nat) (h : d < 10) : digitVal (digitChar d) = d := by
  interval_cases d <;> decide

/-- Characters of a rendered well-formed literal are digits or the dot. -/
theorem renderLit_chars (l : DecLit) (h : l.WF) :
    ∀ c ∈ renderLit l, c.isDigit = true ∨ c = '.' := by
  obtain ⟨hs, -, -, hip, hfp⟩ := h
  intro c hc
  rw [renderLit, hs] at hc
  simp only [if_false, Bool.false_eq_true, List.nil_append, List.mem_append] at hc
  rcases hc with hc | hc
  · obtain ⟨d, hd, rfl⟩ := List.mem_map.mp hc
    exact Or.inl (digitChar_isDigit d (hip d hd))
  · split at hc
    · simp at hc
    · rcases List.mem_cons.mp hc with rfl | hc
      · exact Or.inr rfl
      · obtain ⟨d, hd, rfl⟩ := List.mem_map.mp hc
        exact Or.inl (digitChar_isDigit d (hfp d hd))

theorem inert_renderLit (l : DecLit) (h : l.WF) :
    ∀ c ∈ renderLit l, InertChar c := by
  intro c hc
  rcases renderLit_chars l h c hc with hd | rfl
  · exact inert_of_digit c hd
  · exact ⟨by decide, by decide, by decide⟩

/-- A rendered well-formed literal is nonempty. -/
theorem renderLit_ne_nil (l : DecLit) (h : l.WF) : renderLit l ≠ [] := by
  obtain ⟨hs, hip, -, -, -⟩ := h
  rw [renderLit, hs]
  simp only [if_false, Bool.false_eq_true, List.nil_append]
  intro hcon
  rw [List.append_eq_nil] at hcon
  exact hip (List.map_eq_nil_iff.mp hcon.1)

/-! ### Tree predicates for the round-trip theorem -/

/-- The tree contains no `neg` node. -/
def NoNeg : Expr → Prop
  | .num _ => True
  | .unary op x => op ≠ .negOp ∧ NoNeg x
  | .binary _ l r => NoNeg l ∧ NoNeg r

/-- All number literals of the tree are well-formed non-negative decimal
literals (true of every leaf the program's generator produces). -/
def WFLeaves : Expr → Prop
  | .num l => l.WF
  | .unary _ x => WFLeaves x
  | .binary _ l r => WFLeaves l ∧ WFLeaves r

/-! ### Balance of rendered strings -/

theorem bal_zero_chars (s : List Char) (h : ∀ c ∈ s, balC c = 0) : bal s = 0 := by
  induction s with
  | nil => rfl
  | cons c rest ih =>
    rw [bal_cons, h c (by simp), ih fun x hx => h x (by simp [hx])]
    ring

theorem balC_inert (c : Char) (h : InertChar c) : balC c = 0 := by
  rw [balC, if_neg h.1, if_neg h.2.1]

theorem bal_render (t : Expr) (hn : NoNeg t) (hw : WFLeaves t) : bal (render t) = 0 := by
  induction t with
  | num l =>
    exact bal_zero_chars _ fun c hc => balC_inert c (inert_renderLit l hw c hc)
  | unary op x ih =>
    cases op with
    | factOp =>
      simp only [render, bal_append, bal_cons, bal_nil, ih hn.2 hw]
      decide
    | sqrtOp =>
      simp only [render, bal_append, bal_cons, bal_nil, ih hn.2 hw]
      decide
    | negOp => exact absurd rfl hn.1
  | binary op l r ihl ihr =>
    have hop : balC (bopChar op) = 0 := by cases op <;> decide
    simp only [render, bal_append, bal_cons, bal_nil, hop,
      ihl hn.1 hw.1, ihr hn.2 hw.2]
    decide

/-! ### Non-negative prefixes of rendered strings -/

theorem nonnegPref_zero_chars (s : List Char) (h : ∀ c ∈ s, balC c = 0) :
    NonNegPref s := by
  intro n
  rw [bal_zero_chars _ fun c hc => h c (List.take_subset _ _ hc)]

theorem nonnegPref_append (A B : List Char) (hA : NonNegPref A) (hB : NonNegPref B) :
    NonNegPref (A ++ B) := by
  intro n
  rw [List.take_append_eq_append_take, bal_append]
  exact add_nonneg (hA n) (hB _)

theorem nonnegPref_cons_zero (c : Char) (M : List Char) (hc : balC c = 0)
    (hM : NonNegPref M) : NonNegPref (c :: M) := by
  intro n
  cases n with
  | zero => simp [bal]
  | succ k =>
    rw [List.take_succ_cons, bal_cons, hc]
    have := hM k
    omega

theorem nonnegPref_wrap (M : List Char) (hM : NonNegPref M) (hbal : bal M = 0) :
    NonNegPref (('(' :: M) ++ [')']) := by
  intro n
  rw [List.take_append_eq_append_take, bal_append]
  by_cases hn : n ≤ ('(' :: M).length
  · rw [show n - ('(' :: M).length = 0 by omega]
    simp only [List.take_zero, bal_nil, add_zero]
    cases n with
    | zero => simp [bal]
    | succ k =>
      rw [List.take_succ_cons, bal_cons]
      have := hM k
      have : balC '(' = 1 := by decide
      omega
  · rw [List.take_of_length_le (by omega)]
    have h1 : bal ('(' :: M) = 1 := by
      rw [bal_cons, hbal, show balC '(' = 1 from by decide]
      ring
    have h2 : 0 ≤ 1 + bal (List.take (n - ('(' :: M).length) [')']) := by
      cases hj : n - ('(' :: M).length with
      | zero => decide
      | succ j =>
        rw [show List.take (j + 1) [')'] = [')'] by simp]
        decide
    omega

/-- Every rendered neg-free tree with well-formed leaves is balanced with
non-negative prefixes. -/
theorem nonneg_render (t : Expr) (hn : NoNeg t) (hw : WFLeaves t) :
    NonNegPref (render t) := by
  induction t with
  | num l =>
    exact nonnegPref_zero_chars _ fun c hc =>
      balC_inert c (inert_renderLit l hw c hc)
  | unary op x ih =>
    cases op with
    | factOp =>
      have hshape : render (.unary .factOp x) = ('(' :: (render x ++ ['!'])) ++ [')'] := by
        simp [render]
      rw [hshape]
      exact nonnegPref_wrap _
        (nonnegPref_append _ _ (ih hn.2 hw)
          (nonnegPref_zero_chars _ (by intro c hc; simp at hc; subst hc; decide)))
        (by rw [bal_append, bal_render x hn.2 hw]; decide)
    | sqrtOp =>
      have hshape : render (.unary .sqrtOp x) =
          ['s', 'q', 'r', 't'] ++ (('(' :: render x) ++ [')']) := by
        simp [render]
      rw [hshape]
      exact nonnegPref_append _ _
        (nonnegPref_zero_chars _ (by intro c hc; fin_cases hc <;> decide))
        (nonnegPref_wrap _ (ih hn.2 hw) (bal_render x hn.2 hw))
    | negOp => exact absurd rfl hn.1
  | binary op l r ihl ihr =>
    have hshape : render (.binary op l r) =
        ('(' :: (render l ++ ' ' :: bopChar op :: ' ' :: render r)) ++ [')'] := by
      simp [render]
    rw [hshape]
    have hopz : balC (bopChar op) = 0 := by cases op <;> decide
    refine nonnegPref_wrap _ ?_ ?_
    · exact nonnegPref_append _ _ (ihl hn.1 hw.1)
        (nonnegPref_cons_zero _ _ (by decide)
          (nonnegPref_cons_zero _ _ hopz
            (nonnegPref_cons_zero _ _ (by decide) (ihr hn.2 hw.2))))
    · rw [bal_append, bal_cons, bal_cons, bal_cons, bal_render l hn.1 hw.1,
        bal_render r hn.2 hw.2, hopz]
      decide

/-! ### Head and last characters of rendered strings -/

theorem render_head (t : Expr) (hn : NoNeg t) (hw : WFLeaves t) :
    (render t).headD ' ' = '(' ∨ (render t).headD ' ' = 's' ∨
      ((render t).headD ' ').isDigit = true := by
  cases t with
  | num l =>
    right; right
    obtain ⟨hs, hip, -, hd, -⟩ := hw
    rw [render, renderLit, hs]
    simp only [if_false, Bool.false_eq_true, List.nil_append]
    cases hip' : l.ip with
    | nil => exact absurd hip' hip
    | cons d rest =>
      simp only [List.map_cons, List.cons_append, List.headD_cons]
      exact digitChar_isDigit d (hd d (by rw [hip']; simp))
  | unary op x =>
    cases op with
    | factOp => left; rfl
    | sqrtOp => right; left; rfl
    | negOp => exact absurd rfl hn.1
  | binary op l r => left; rfl

theorem render_last (t : Expr) (hn : NoNeg t) (hw : WFLeaves t) :
    (render t).getLastD ' ' = ')' ∨ ((render t).getLastD ' ').isDigit = true := by
  cases t with
  | num l =>
    right
    obtain ⟨hs, hip, -, hd, hf⟩ := hw
    rw [render, renderLit, hs]
    simp only [if_false, Bool.false_eq_true, List.nil_append]
    by_cases hfp : l.fp = []
    · rcases List.eq_nil_or_concat l.ip with hnil | ⟨ip', d, hip'⟩
      · exact absurd hnil hip
      · rw [hip', hfp]
        simp only [List.concat_eq_append, List.map_append, List.map_cons, List.map_nil]
        rw [if_pos trivial, List.append_nil, List.getLastD_concat]
        exact digitChar_isDigit d (hd d (by rw [hip']; simp))
    · rcases List.eq_nil_or_concat l.fp with hnil | ⟨fp', d, hfp'⟩
      · exact absurd hnil hfp
      · rw [if_neg hfp, hfp']
        simp only [List.concat_eq_append, List.map_append, List.map_cons, List.map_nil]
        rw [show List.map digitChar l.ip ++
            '.' :: (List.map digitChar fp' ++ [digitChar d]) =
          (List.map digitChar l.ip ++ '.' :: List.map digitChar fp') ++
            [digitChar d] by simp, List.getLastD_concat]
        exact digitChar_isDigit d (hf d (by rw [hfp']; simp))
  | unary op x =>
    cases op with
    | factOp =>
      left
      have : render (.unary .factOp x) = ('(' :: (render x ++ ['!'])) ++ [')'] := by
        simp [render]
      rw [this, List.getLastD_concat]
    | sqrtOp =>
      left
      have : render (.unary .sqrtOp x) =
          ('s' :: 'q' :: 'r' :: 't' :: '(' :: render x) ++ [')'] := by
        simp [render]
      rw [this, List.getLastD_concat]
    | negOp => exact absurd rfl hn.1
  | binary op l r =>
    left
    have : render (.binary op l r) =
        ('(' :: (render l ++ ' ' :: bopChar op :: ' ' :: render r)) ++ [')'] := by
      simp [render]
    rw [this, List.getLastD_concat]

/-! ### Shapes of rendered strings -/

theorem render_fact_shape (x : Expr) :
    render (.unary .factOp x) = ('(' :: render x) ++ ['!', ')'] := rfl

theorem render_sqrt_shape (x : Expr) :
    render (.unary .sqrtOp x) = (['s', 'q', 'r', 't', '('] ++ render x) ++ [')'] := by
  simp [render]

theorem render_bin_shape (op : BOp) (l r : Expr) :
    render (.binary op l r) =
      (('(' :: render l) ++ ([' ', bopChar op, ' '] ++ render r)) ++ [')'] := by
  simp [render]

theorem render_ne_nil (t : Expr) (hw : WFLeaves t) : render t ≠ [] := by
  cases t with
  | num l => exact renderLit_ne_nil l hw
  | unary op x =>
    cases op with
    | factOp => simp [render]
    | sqrtOp => simp [render]
    | negOp => rw [render]; split <;> simp
  | binary op l r => simp [render]

/-! ### The operator scan passes through any rendered neg-free subtree -/

theorem scanAux_render (band : List Char) (hband : band ⊆ binChars) :
    ∀ t, NoNeg t → WFLeaves t → ∀ (s : List Char) (a : Nat) (d : ℤ), d ≤ 0 →
      matchesAt s a (render t) →
      scanAux s band (a + (render t).length) d = scanAux s band a d := by
  intro t
  induction t with
  | num l =>
    intro hn hw s a d hd hm
    exact scanAux_skip_inert s band hband _ a d (inert_renderLit l hw) hm
  | unary op x ih =>
    intro hn hw s a d hd hm
    cases op with
    | factOp =>
      rw [render_fact_shape] at hm ⊢
      rw [matchesAt_append] at hm
      obtain ⟨⟨hopen, hmx⟩, hm2⟩ := hm
      simp only [List.length_cons] at hm2
      obtain ⟨hbang, hclose, -⟩ := hm2
      rw [show (('(' :: render x) ++ ['!', ')']).length = (render x).length + 3 by simp]
      rw [show a + ((render x).length + 3) = (a + ((render x).length + 1) + 1) + 1 by omega]
      rw [scanAux_close s band _ d hclose]
      rw [scanAux_pass s band _ _ (by rw [hbang]; decide) (by rw [hbang]; decide)
        (Or.inl (by omega))]
      rw [show a + ((render x).length + 1) = (a + 1) + (render x).length by omega]
      rw [ih hn.2 hw s (a + 1) (d - 1) (by omega) hmx]
      rw [scanAux_open s band a (d - 1) hopen]
      rw [show d - 1 + 1 = d by ring]
    | sqrtOp =>
      rw [render_sqrt_shape] at hm ⊢
      rw [matchesAt_append] at hm
      obtain ⟨hm1, hm2⟩ := hm
      rw [matchesAt_append] at hm1
      obtain ⟨hm0, hmx⟩ := hm1
      simp only [List.length_append, List.length_cons, List.length_nil] at hm2 hmx
      obtain ⟨hclose, -⟩ := hm2
      obtain ⟨c1, c2, c3, c4, c5, -⟩ := hm0
      have hmx' : matchesAt s (a + 5) (render x) := by
        rwa [show a + (0 + 1 + 1 + 1 + 1 + 1) = a + 5 by omega] at hmx
      have hclose' : s.getD (a + 5 + (render x).length) ' ' = ')' := by
        rw [show a + 5 + (render x).length = a + (0 + 1 + 1 + 1 + 1 + 1 + (render x).length)
          by omega]
        exact hclose
      have hc5' : s.getD (a + 4) ' ' = '(' := by
        rwa [show a + 1 + 1 + 1 + 1 = a + 4 by omega] at c5
      rw [show ((['s', 'q', 'r', 't', '('] ++ render x) ++ [')']).length =
        (render x).length + 6 by simp]
      rw [show a + ((render x).length + 6) = (a + 5 + (render x).length) + 1 by omega]
      rw [scanAux_close s band _ d hclose']
      rw [show a + 5 + (render x).length = (a + 5) + (render x).length by omega]
      rw [ih hn.2 hw s (a + 5) (d - 1) (by omega) hmx']
      rw [show a + 5 = (a + 4) + 1 by omega]
      rw [scanAux_open s band (a + 4) (d - 1) hc5']
      rw [show d - 1 + 1 = d by ring]
      rw [show a + 4 = a + (['s', 'q', 'r', 't'] : List Char).length by simp]
      rw [scanAux_skip_inert s band hband ['s', 'q', 'r', 't'] a d
        (by intro c hc; fin_cases hc <;> exact ⟨by decide, by decide, by decide⟩)
        ⟨c1, c2, c3, c4, trivial⟩]
    | negOp => exact absurd rfl hn.1
  | binary op l r ihl ihr =>
    intro hn hw s a d hd hm
    rw [render_bin_shape] at hm ⊢
    rw [matchesAt_append] at hm
    obtain ⟨hm1, hm2⟩ := hm
    rw [matchesAt_append] at hm1
    obtain ⟨⟨hopen, hml⟩, hm3⟩ := hm1
    rw [matchesAt_append] at hm3
    obtain ⟨hmid, hmr⟩ := hm3
    obtain ⟨hsp1, hop, hsp2, -⟩ := hmid
    simp only [List.length_cons, List.length_append, List.length_nil] at hm2 hmr hsp1 hop hsp2
    have hopne1 : bopChar op ≠ '(' := by cases op <;> decide
    have hopne2 : bopChar op ≠ ')' := by cases op <;> decide
    have hsp1' : s.getD (a + 1 + (render l).length) ' ' = ' ' := by
      rwa [show a + ((render l).length + 1) = a + 1 + (render l).length by omega] at hsp1
    have hop' : s.getD (a + 1 + (render l).length + 1) ' ' = bopChar op := by
      rwa [show a + ((render l).length + 1) + 1 = a + 1 + (render l).length + 1 by omega]
        at hop
    have hsp2' : s.getD (a + 1 + (render l).length + 2) ' ' = ' ' := by
      rwa [show a + ((render l).length + 1) + 1 + 1 = a + 1 + (render l).length + 2 by omega]
        at hsp2
    have hmr' : matchesAt s (a + 1 + (render l).length + 3) (render r) := by
      rwa [show a + ((render l).length + 1) + (0 + 1 + 1 + 1) =
        a + 1 + (render l).length + 3 by omega] at hmr
    rw [show ((('(' :: render l) ++ ([' ', bopChar op, ' '] ++ render r)) ++ [')']).length =
      (render l).length + (render r).length + 5 by simp; omega]
    rw [show a + ((render l).length + (render r).length + 5) =
      (a + 1 + (render l).length + 3 + (render r).length) + 1 by omega]
    have hclose' : s.getD (a + 1 + (render l).length + 3 + (render r).length) ' ' = ')' := by
      rw [show a + 1 + (render l).length + 3 + (render r).length =
        a + ((render l).length + 1 + (0 + 1 + 1 + 1 + (render r).length)) by omega]
      exact hm2.1
    rw [scanAux_close s band _ d hclose']
    rw [show a + 1 + (render l).length + 3 + (render r).length =
      (a + 1 + (render l).length + 3) + (render r).length by omega]
    rw [ihr hn.2 hw.2 s _ (d - 1) (by omega) hmr']
    rw [show a + 1 + (render l).length + 3 = (a + 1 + (render l).length + 2) + 1 by omega]
    rw [scanAux_pass s band _ _ (by rw [hsp2']; decide) (by rw [hsp2']; decide)
      (Or.inl (by omega))]
    rw [show a + 1 + (render l).length + 2 = (a + 1 + (render l).length + 1) + 1 by omega]
    rw [scanAux_pass s band _ _ (by rw [hop']; exact hopne1) (by rw [hop']; exact hopne2)
      (Or.inl (by omega))]
    rw [show a + 1 + (render l).length + 1 = (a + 1 + (render l).length) + 1 by omega]
    rw [scanAux_pass s band _ _ (by rw [hsp1']; decide) (by rw [hsp1']; decide)
      (Or.inl (by omega))]
    rw [show a + 1 + (render l).length = (a + 1) + (render l).length by omega]
    rw [ihl hn.1 hw.1 s _ (d - 1) (by omega) hml]
    rw [scanAux_open s band a (d - 1) hopen]
    rw [show d - 1 + 1 = d by ring]

/-! ### Top-level scans -/

/-- No root-level operator is found in any single rendered neg-free tree. -/
theorem scanBand_render_none (band : List Char) (hband : band ⊆ binChars)
    (t : Expr) (hn : NoNeg t) (hw : WFLeaves t) :
    scanBand (render t) band = none := by
  unfold scanBand
  rw [show (render t).length = 0 + (render t).length by omega]
  rw [scanAux_render band hband t hn hw _ 0 0 (le_refl 0) (matchesAt_refl _)]
  rfl

/-- The string `render l ++ " op " ++ render r` produced by stripping the
outer parentheses of a rendered binary node. -/
def binStr (l : Expr) (op : BOp) (r : Expr) : List Char :=
  render l ++ ' ' :: bopChar op :: ' ' :: render r

theorem binStr_matches (l : Expr) (op : BOp) (r : Expr) :
    matchesAt (binStr l op r) 0 (render l) ∧
    matchesAt (binStr l op r) ((render l).length) [' ', bopChar op, ' '] ∧
    matchesAt (binStr l op r) ((render l).length + 3) (render r) := by
  refine ⟨?_, ?_, ?_⟩
  · simpa using matchesAt_of_append (binStr l op r) [] (render l)
      (' ' :: bopChar op :: ' ' :: render r) (by simp [binStr])
  · simpa using matchesAt_of_append (binStr l op r) (render l)
      [' ', bopChar op, ' '] (render r) (by simp [binStr])
  · have := matchesAt_of_append (binStr l op r)
      (render l ++ [' ', bopChar op, ' ']) (render r) [] (by simp [binStr])
    simpa [show (render l ++ [' ', bopChar op, ' ']).length = (render l).length + 3
      by simp] using this

theorem binStr_length (l : Expr) (op : BOp) (r : Expr) :
    (binStr l op r).length = (render l).length + 3 + (render r).length := by
  simp [binStr]
  omega

/-- Scanning a band that contains the root operator finds exactly the root
operator position. -/
theorem scanBand_binStr_mem (l : Expr) (op : BOp) (r : Expr) (band : List Char)
    (hband : band ⊆ binChars)
    (hnl : NoNeg l) (hwl : WFLeaves l) (hnr : NoNeg r) (hwr : WFLeaves r)
    (hmem : bopChar op ∈ band) :
    scanBand (binStr l op r) band = some ((render l).length + 1) := by
  obtain ⟨hA, hMid, hR⟩ := binStr_matches l op r
  obtain ⟨g1, g2, g3, -⟩ := hMid
  have hopne1 : bopChar op ≠ '(' := by cases op <;> decide
  have hopne2 : bopChar op ≠ ')' := by cases op <;> decide
  unfold scanBand
  rw [binStr_length]
  rw [show (render l).length + 3 + (render r).length =
    ((render l).length + 3) + (render r).length by omega]
  rw [scanAux_render band hband r hnr hwr _ _ 0 (le_refl 0) hR]
  rw [show (render l).length + 3 = ((render l).length + 2) + 1 by omega]
  rw [scanAux_pass _ band _ 0
    (by rw [show (render l).length + 2 = (render l).length + 1 + 1 by omega, g3]; decide)
    (by rw [show (render l).length + 2 = (render l).length + 1 + 1 by omega, g3]; decide)
    (Or.inr (by
      rw [show (render l).length + 2 = (render l).length + 1 + 1 by omega, g3]
      intro hc
      have := hband hc
      simp [binChars] at this))]
  rw [show (render l).length + 2 = ((render l).length + 1) + 1 by omega]
  rw [scanAux_hit _ band ((render l).length + 1)
    (by rw [g2]; exact hopne1) (by rw [g2]; exact hopne2) (by rw [g2]; exact hmem)
    ?_ ?_]
  · rintro ⟨-, -, hdig, -⟩
    rw [show (render l).length + 1 - 1 = (render l).length by omega, g1] at hdig
    exact Bool.noConfusion hdig
  · rintro ⟨-, h0 | hsk⟩
    · omega
    · rw [show (render l).length + 1 - 1 = (render l).length by omega, g1] at hsk
      simp [skipSet] at hsk

/-- Scanning a band that does not contain the root operator finds
nothing. -/
theorem scanBand_binStr_notmem (l : Expr) (op : BOp) (r : Expr) (band : List Char)
    (hband : band ⊆ binChars)
    (hnl : NoNeg l) (hwl : WFLeaves l) (hnr : NoNeg r) (hwr : WFLeaves r)
    (hnmem : bopChar op ∉ band) :
    scanBand (binStr l op r) band = none := by
  obtain ⟨hA, hMid, hR⟩ := binStr_matches l op r
  obtain ⟨g1, g2, g3, -⟩ := hMid
  have hopne1 : bopChar op ≠ '(' := by cases op <;> decide
  have hopne2 : bopChar op ≠ ')' := by cases op <;> decide
  have hspass : ∀ j : Nat, (binStr l op r).getD j ' ' = ' ' →
      ∀ d : ℤ, scanAux (binStr l op r) band (j + 1) d = scanAux (binStr l op r) band j d := by
    intro j hj d
    exact scanAux_pass _ band j d (by rw [hj]; decide) (by rw [hj]; decide)
      (Or.inr (by rw [hj]; intro hc; have := hband hc; simp [binChars] at this))
  unfold scanBand
  rw [binStr_length]
  rw [show (render l).length + 3 + (render r).length =
    ((render l).length + 3) + (render r).length by omega]
  rw [scanAux_render band hband r hnr hwr _ _ 0 (le_refl 0) hR]
  rw [show (render l).length + 3 = ((render l).length + 2) + 1 by omega]
  rw [hspass ((render l).length + 2)
    (by rw [show (render l).length + 2 = (render l).length + 1 + 1 by omega]; exact g3) 0]
  rw [show (render l).length + 2 = ((render l).length + 1) + 1 by omega]
  rw [scanAux_pass _ band ((render l).length + 1) 0
    (by rw [g2]; exact hopne1) (by rw [g2]; exact hopne2) (Or.inr (by rw [g2]; exact hnmem))]
  rw [show (render l).length + 1 = (render l).length + 1 by rfl]
  rw [hspass ((render l).length) g1 0]
  rw [show (render l).length = 0 + (render l).length by omega]
  rw [scanAux_render band hband l hnl hwl _ 0 0 (le_refl 0) hA]
  rfl

/-! ### Characterisation of the outer-parenthesis matching test -/

theorem noZeroPref_iff : ∀ (s : List Char) (d : ℤ),
    noZeroPref s d = true ↔ ∀ k, 1 ≤ k → k ≤ s.length → d + bal (s.take k) ≠ 0 := by
  intro s
  induction s with
  | nil =>
    intro d
    simp only [noZeroPref, List.length_nil, true_iff]
    intro k h1 h2
    omega
  | cons c rest ih =>
    intro d
    rw [noZeroPref]
    by_cases hz : d + (if c = '(' then (1 : ℤ) else if c = ')' then -1 else 0) = 0
    · rw [if_pos hz]
      constructor
      · intro h; exact absurd h (by simp)
      · intro h
        exfalso
        refine h 1 (le_refl 1) (by simp) ?_
        rw [List.take_succ_cons, List.take_zero, bal_cons, bal_nil]
        rw [show balC c = if c = '(' then (1 : ℤ) else if c = ')' then -1 else 0 from rfl]
        omega
    · rw [if_neg hz, ih]
      constructor
      · intro h k h1 h2
        cases k with
        | zero => omega
        | succ j =>
          rw [List.take_succ_cons, bal_cons]
          rw [show balC c = if c = '(' then (1 : ℤ) else if c = ')' then -1 else 0 from rfl]
          cases j with
          | zero =>
            rw [List.take_zero, bal_nil]
            omega
          | succ j' =>
            have := h (j' + 1) (by omega) (by simp at h2; omega)
            omega
      · intro h k h1 h2
        have := h (k + 1) (by omega) (by simp; omega)
        rw [List.take_succ_cons, bal_cons] at this
        rw [show balC c = if c = '(' then (1 : ℤ) else if c = ')' then -1 else 0 from rfl]
          at this
        omega

/-! ### Trim lemmas -/

theorem trim_eq_self (s : List Char) (h1 : (s.headD ' ').isWhitespace = false)
    (h2 : (s.getLastD ' ').isWhitespace = false) : trim s = s := by
  cases s with
  | nil => simp at h1
  | cons c rest =>
    have hTL : trimLeft (c :: rest) = c :: rest := by
      rw [trimLeft, List.dropWhile_cons, if_neg (by simpa using h1)]
    rw [trim, hTL, trimRight]
    cases hr : (c :: rest).reverse with
    | nil => exact absurd hr (by simp)
    | cons c2 rest2 =>
      have hlast : (c :: rest).getLastD ' ' = c2 := by
        have : (c :: rest) = rest2.reverse ++ [c2] := by
          rw [← List.reverse_reverse (c :: rest), hr]
          simp
        rw [this, List.getLastD_concat]
      rw [List.dropWhile_cons, if_neg (by rw [← hlast]; simpa using h2)]
      rw [← hr, List.reverse_reverse]

theorem trim_concat_ws (A : List Char) (h1 : (A.headD ' ').isWhitespace = false)
    (h2 : (A.getLastD ' ').isWhitespace = false) : trim (A ++ [' ']) = A := by
  cases A with
  | nil => simp at h1
  | cons c rest =>
    have hTL : trimLeft ((c :: rest) ++ [' ']) = (c :: rest) ++ [' '] := by
      rw [trimLeft, List.cons_append, List.dropWhile_cons, if_neg (by simpa using h1)]
    rw [trim, hTL, trimRight]
    rw [show ((c :: rest) ++ [' ']).reverse = ' ' :: (c :: rest).reverse by simp]
    rw [List.dropWhile_cons, if_pos (by decide)]
    cases hr : (c :: rest).reverse with
    | nil => exact absurd hr (by simp)
    | cons c2 rest2 =>
      have hlast : (c :: rest).getLastD ' ' = c2 := by
        have : (c :: rest) = rest2.reverse ++ [c2] := by
          rw [← List.reverse_reverse (c :: rest), hr]
          simp
        rw [this, List.getLastD_concat]
      rw [List.dropWhile_cons, if_neg (by rw [← hlast]; simpa using h2)]
      rw [← hr, List.reverse_reverse]

theorem trim_ws_cons (A : List Char) (h1 : (A.headD ' ').isWhitespace = false)
    (h2 : (A.getLastD ' ').isWhitespace = false) : trim (' ' :: A) = A := by
  have hTL : trimLeft (' ' :: A) = A := by
    rw [trimLeft, List.dropWhile_cons, if_pos (by decide)]
    cases A with
    | nil => rfl
    | cons c rest =>
      rw [List.dropWhile_cons, if_neg (by simpa using h1)]
  rw [trim, hTL]
  cases A with
  | nil => rfl
  | cons c rest =>
    have := trim_eq_self (c :: rest) h1 h2
    rw [trim] at this
    rw [trimLeft, List.dropWhile_cons, if_neg (by simpa using h1)] at this
    exact this

theorem render_head_not_ws (t : Expr) (hn : NoNeg t) (hw : WFLeaves t) :
    ((render t).headD ' ').isWhitespace = false := by
  rcases render_head t hn hw with h | h | h
  · rw [h]; decide
  · rw [h]; decide
  · exact isDigit_not_ws _ h

theorem render_last_not_ws (t : Expr) (hn : NoNeg t) (hw : WFLeaves t) :
    ((render t).getLastD ' ').isWhitespace = false := by
  rcases render_last t hn hw with h | h
  · rw [h]; decide
  · exact isDigit_not_ws _ h

theorem trim_render (t : Expr) (hn : NoNeg t) (hw : WFLeaves t) :
    trim (render t) = render t :=
  trim_eq_self _ (render_head_not_ws t hn hw) (render_last_not_ws t hn hw)

/-! ### Outer-parenthesis stripping on rendered strings -/

theorem headD_append_left (A B : List Char) (h : A ≠ []) :
    (A ++ B).headD ' ' = A.headD ' ' := by
  cases A with
  | nil => exact absurd rfl h
  | cons c rest => rfl

theorem getLastD_append_right (A B : List Char) (h : B ≠ []) :
    (A ++ B).getLastD ' ' = B.getLastD ' ' := by
  rcases List.eq_nil_or_concat B with rfl | ⟨B', b, rfl⟩
  · exact absurd rfl h
  · rw [show A ++ B'.concat b = (A ++ B') ++ [b] by simp]
    rw [List.getLastD_concat, List.concat_eq_append, List.getLastD_concat]

theorem stripLoop_stop (fuel : Nat) (hf : 1 ≤ fuel) (s : List Char)
    (h : ¬ (s.headD ' ' = '(' ∧ s.getLastD ' ' = ')') ∨
      noZeroPref s.dropLast 0 = false) :
    stripLoop fuel s = some s := by
  cases fuel with
  | zero => omega
  | succ f =>
    rw [stripLoop]
    rcases h with h | h
    · rw [if_neg h]
    · by_cases hc : s.headD ' ' = '(' ∧ s.getLastD ' ' = ')'
      · rw [if_pos hc, h]
        simp
      · rw [if_neg hc]

theorem stripParens_stop (s : List Char)
    (h : ¬ (s.headD ' ' = '(' ∧ s.getLastD ' ' = ')') ∨
      noZeroPref s.dropLast 0 = false) :
    stripParens s = some s :=
  stripLoop_stop (s.length + 1) (by omega) s h

theorem noZero_wrap (M : List Char) (hM : NonNegPref M) :
    noZeroPref ('(' :: M) 0 = true := by
  rw [noZeroPref_iff]
  intro k h1 h2
  cases k with
  | zero => omega
  | succ j =>
    rw [List.take_succ_cons, bal_cons, show balC '(' = 1 from rfl]
    have := hM j
    omega

/-- One round of outer-parenthesis stripping followed by an immediate
stop. -/
theorem stripParens_wrapped (M : List Char) (hM : M ≠ [])
    (hhead : (M.headD ' ').isWhitespace = false)
    (hlast : (M.getLastD ' ').isWhitespace = false)
    (hnz : noZeroPref ('(' :: M) 0 = true)
    (hstop : ¬ (M.headD ' ' = '(' ∧ M.getLastD ' ' = ')') ∨
      noZeroPref M.dropLast 0 = false) :
    stripParens (('(' :: M) ++ [')']) = some M := by
  unfold stripParens
  rw [show (('(' :: M) ++ [')']).length + 1 = (M.length + 2) + 1 by simp]
  rw [stripLoop]
  rw [if_pos ⟨by rw [headD_append_left _ _ (by simp)]; rfl,
    by rw [List.getLastD_concat]⟩]
  rw [show (('(' :: M) ++ [')']).dropLast = '(' :: M by rw [List.dropLast_concat]]
  rw [hnz]
  simp only [if_true]
  rw [show (('(' :: M) ++ [')']).drop 1 = M ++ [')'] by simp]
  rw [show (M ++ [')']).dropLast = M by rw [List.dropLast_concat]]
  rw [trim_eq_self M hhead hlast]
  rw [if_neg hM]
  exact stripLoop_stop (M.length + 2) (by omega) M hstop

/-- Stripping the rendered factorial `(X!)` yields `X!`. -/
theorem stripParens_render_fact (x : Expr) (hn : NoNeg x) (hw : WFLeaves x) :
    stripParens (render (.unary .factOp x)) = some (render x ++ ['!']) := by
  have hxnil := render_ne_nil x hw
  rw [show render (.unary .factOp x) = ('(' :: (render x ++ ['!'])) ++ [')'] by
    simp [render]]
  refine stripParens_wrapped _ (by simp) ?_ ?_ ?_ ?_
  · rw [headD_append_left _ _ hxnil]
    exact render_head_not_ws x hn hw
  · rw [List.getLastD_concat]
    decide
  · exact noZero_wrap _ (nonnegPref_append _ _ (nonneg_render x hn hw)
      (nonnegPref_zero_chars _ (by intro c hc; simp at hc; subst hc; decide)))
  · left
    rintro ⟨-, hlast⟩
    rw [List.getLastD_concat] at hlast
    exact absurd hlast (by decide)

/-- Stripping the rendered binary node `(L op R)` yields `L op R`, and the
result strips no further. -/
theorem stripParens_render_binary (op : BOp) (l r : Expr)
    (hnl : NoNeg l) (hwl : WFLeaves l) (hnr : NoNeg r) (hwr : WFLeaves r) :
    stripParens (render (.binary op l r)) = some (binStr l op r) := by
  have hlnil := render_ne_nil l hwl
  have hrnil := render_ne_nil r hwr
  rw [show render (.binary op l r) = ('(' :: binStr l op r) ++ [')'] by
    simp [render, binStr]]
  refine stripParens_wrapped _ (by simp [binStr, hlnil]) ?_ ?_ ?_ ?_
  · rw [binStr, headD_append_left _ _ hlnil]
    exact render_head_not_ws l hnl hwl
  · rw [binStr, getLastD_append_right _ _ (by simp [hrnil])]
    rw [show (' ' :: bopChar op :: ' ' :: render r : List Char) =
      ([' ', bopChar op, ' '] : List Char) ++ render r from rfl]
    rw [getLastD_append_right _ _ hrnil]
    exact render_last_not_ws r hnr hwr
  · refine noZero_wrap _ ?_
    rw [binStr]
    have hopz : balC (bopChar op) = 0 := by cases op <;> decide
    exact nonnegPref_append _ _ (nonneg_render l hnl hwl)
      (nonnegPref_cons_zero _ _ (by decide)
        (nonnegPref_cons_zero _ _ hopz
          (nonnegPref_cons_zero _ _ (by decide) (nonneg_render r hnr hwr))))
  · right
    have hchar : ¬ (noZeroPref (binStr l op r).dropLast 0 = true) := by
      rw [noZeroPref_iff]
      push_neg
      refine ⟨(render l).length, ?_, ?_, ?_⟩
      · have := List.length_pos.mpr hlnil
        omega
      · rw [List.length_dropLast, binStr_length]
        have := List.length_pos.mpr hrnil
        omega
      · rw [List.dropLast_eq_take, List.take_take]
        rw [show min (render l).length ((binStr l op r).length - 1) =
          (render l).length by rw [binStr_length]; have := List.length_pos.mpr hrnil; omega]
        rw [binStr, List.take_left]
        rw [bal_render l hnl hwl]
        ring
    cases hb : noZeroPref (binStr l op r).dropLast 0
    · rfl
    · exact absurd hb hchar

/-! ### The forward scan for the parenthesis closing `sqrt(` -/

theorem findClose_step_open (s : List Char) (g i : Nat) (d : ℤ)
    (hi : i < s.length) (h : s.getD i ' ' = '(') :
    findCloseAux s (g + 1) i d = findCloseAux s g (i + 1) (d + 1) := by
  simp only [findCloseAux]
  rw [if_pos hi, h]
  simp

theorem findClose_step_close_ne (s : List Char) (g i : Nat) (d : ℤ)
    (hi : i < s.length) (h : s.getD i ' ' = ')') (hd : d - 1 ≠ 0) :
    findCloseAux s (g + 1) i d = findCloseAux s g (i + 1) (d - 1) := by
  simp only [findCloseAux]
  rw [if_pos hi, h]
  simp [hd]

theorem findClose_step_close_eq (s : List Char) (g i : Nat) (d : ℤ)
    (hi : i < s.length) (h : s.getD i ' ' = ')') (hd : d - 1 = 0) :
    findCloseAux s (g + 1) i d = some i := by
  simp only [findCloseAux]
  rw [if_pos hi, h]
  simp [hd]

theorem findClose_step_pass (s : List Char) (g i : Nat) (d : ℤ)
    (hi : i < s.length) (h1 : s.getD i ' ' ≠ '(') (h2 : s.getD i ' ' ≠ ')') :
    findCloseAux s (g + 1) i d = findCloseAux s g (i + 1) d := by
  simp only [findCloseAux]
  rw [if_pos hi, if_neg h1, if_neg h2]

theorem findClose_skip_nonparen (s : List Char) :
    ∀ (B : List Char) (g a : Nat) (d : ℤ), (∀ c ∈ B, c ≠ '(' ∧ c ≠ ')') →
      matchesAt s a B → a + B.length ≤ s.length →
      findCloseAux s (g + B.length) a d = findCloseAux s g (a + B.length) d := by
  intro B
  induction B with
  | nil => intro g a d _ _ _; rfl
  | cons c B ih =>
    intro g a d hc hm hlen
    obtain ⟨h1, hm2⟩ := hm
    rw [show g + (c :: B).length = (g + B.length) + 1 by
      simp only [List.length_cons]; omega]
    rw [findClose_step_pass s _ a d (by simp at hlen; omega)
      (by rw [h1]; exact (hc c (by simp)).1) (by rw [h1]; exact (hc c (by simp)).2)]
    rw [ih (g) (a + 1) d (fun x hx => hc x (by simp [hx])) hm2 (by simp at hlen; omega)]
    rw [show a + (c :: B).length = (a + 1) + B.length by
      simp only [List.length_cons]; omega]

/-- The forward scan passes straight through any rendered neg-free subtree
when the running depth is positive. -/
theorem findCloseAux_render :
    ∀ t, NoNeg t → WFLeaves t → ∀ (s : List Char) (g a : Nat) (d : ℤ), 1 ≤ d →
      matchesAt s a (render t) → a + (render t).length ≤ s.length →
      findCloseAux s (g + (render t).length) a d =
        findCloseAux s g (a + (render t).length) d := by
  intro t
  induction t with
  | num l =>
    intro hn hw s g a d hd hm hlen
    exact findClose_skip_nonparen s _ g a d
      (fun c hc => ⟨(inert_renderLit l hw c hc).1, (inert_renderLit l hw c hc).2.1⟩)
      hm hlen
  | unary op x ih =>
    intro hn hw s g a d hd hm hlen
    cases op with
    | factOp =>
      rw [render_fact_shape] at hm hlen ⊢
      rw [matchesAt_append] at hm
      obtain ⟨⟨hopen, hmx⟩, hm2⟩ := hm
      simp only [List.length_cons] at hm2
      obtain ⟨hbang, hclose, -⟩ := hm2
      rw [show (('(' :: render x) ++ ['!', ')']).length = (render x).length + 3
        by simp] at hlen ⊢
      have hbang' : s.getD (a + 1 + (render x).length) ' ' = '!' := by
        rwa [show a + 1 + (render x).length = a + ((render x).length + 1) by omega]
      have hclose' : s.getD (a + 1 + (render x).length + 1) ' ' = ')' := by
        rwa [show a + 1 + (render x).length + 1 = a + ((render x).length + 1) + 1 by omega]
      rw [show g + ((render x).length + 3) = ((g + 2) + (render x).length) + 1 by omega]
      rw [findClose_step_open s _ a d (by omega) hopen]
      rw [ih hn.2 hw s (g + 2) (a + 1) (d + 1) (by omega) hmx (by omega)]
      rw [show g + 2 = (g + 1) + 1 by omega]
      rw [findClose_step_pass s (g + 1) (a + 1 + (render x).length) (d + 1) (by omega)
        (by rw [hbang']; decide) (by rw [hbang']; decide)]
      rw [show g + 1 = g + 1 from rfl]
      rw [findClose_step_close_ne s g (a + 1 + (render x).length + 1) (d + 1) (by omega)
        hclose' (by omega)]
      rw [show a + 1 + (render x).length + 1 + 1 = a + ((render x).length + 3) by omega,
        show d + 1 - 1 = d by ring]
    | sqrtOp =>
      rw [render_sqrt_shape] at hm hlen ⊢
      rw [matchesAt_append] at hm
      obtain ⟨hm1, hm2⟩ := hm
      rw [matchesAt_append] at hm1
      obtain ⟨hm0, hmx⟩ := hm1
      simp only [List.length_append, List.length_cons, List.length_nil] at hm2 hmx
      obtain ⟨c1, c2, c3, c4, c5, -⟩ := hm0
      obtain ⟨hcl, -⟩ := hm2
      rw [show ((['s', 'q', 'r', 't', '('] ++ render x) ++ [')']).length =
        (render x).length + 6 by simp] at hlen ⊢
      have hc2 : s.getD (a + 1) ' ' = 'q' := c2
      have hc3 : s.getD (a + 2) ' ' = 'r' := by
        rwa [show a + 2 = a + 1 + 1 by omega]
      have hc4 : s.getD (a + 3) ' ' = 't' := by
        rwa [show a + 3 = a + 1 + 1 + 1 by omega]
      have hc5 : s.getD (a + 4) ' ' = '(' := by
        rwa [show a + 4 = a + 1 + 1 + 1 + 1 by omega]
      have hmx' : matchesAt s (a + 5) (render x) := by
        rwa [show a + 5 = a + (0 + 1 + 1 + 1 + 1 + 1) by omega]
      have hcl' : s.getD (a + 5 + (render x).length) ' ' = ')' := by
        rwa [show a + 5 + (render x).length =
          a + (0 + 1 + 1 + 1 + 1 + 1 + (render x).length) by omega]
      rw [show g + ((render x).length + 6) = ((g + 5) + (render x).length) + 1 by omega]
      rw [findClose_step_pass s _ a d (by omega) (by rw [c1]; decide) (by rw [c1]; decide)]
      rw [show (g + 5) + (render x).length = ((g + 4) + (render x).length) + 1 by omega]
      rw [findClose_step_pass s _ (a + 1) d (by omega) (by rw [hc2]; decide)
        (by rw [hc2]; decide)]
      rw [show a + 1 + 1 = a + 2 by omega]
      rw [show (g + 4) + (render x).length = ((g + 3) + (render x).length) + 1 by omega]
      rw [findClose_step_pass s _ (a + 2) d (by omega) (by rw [hc3]; decide)
        (by rw [hc3]; decide)]
      rw [show a + 2 + 1 = a + 3 by omega]
      rw [show (g + 3) + (render x).length = ((g + 2) + (render x).length) + 1 by omega]
      rw [findClose_step_pass s _ (a + 3) d (by omega) (by rw [hc4]; decide)
        (by rw [hc4]; decide)]
      rw [show a + 3 + 1 = a + 4 by omega]
      rw [show (g + 2) + (render x).length = ((g + 1) + (render x).length) + 1 by omega]
      rw [findClose_step_open s _ (a + 4) d (by omega) hc5]
      rw [show a + 4 + 1 = a + 5 by omega]
      rw [ih hn.2 hw s (g + 1) (a + 5) (d + 1) (by omega) hmx' (by omega)]
      rw [show g + 1 = g + 1 from rfl]
      rw [findClose_step_close_ne s g (a + 5 + (render x).length) (d + 1) (by omega)
        hcl' (by omega)]
      rw [show a + 5 + (render x).length + 1 = a + ((render x).length + 6) by omega,
        show d + 1 - 1 = d by ring]
    | negOp => exact absurd rfl hn.1
  | binary op l r ihl ihr =>
    intro hn hw s g a d hd hm hlen
    rw [render_bin_shape] at hm hlen ⊢
    rw [matchesAt_append] at hm
    obtain ⟨hm1, hm2⟩ := hm
    rw [matchesAt_append] at hm1
    obtain ⟨⟨hopen, hml⟩, hm3⟩ := hm1
    rw [matchesAt_append] at hm3
    obtain ⟨hmid, hmr⟩ := hm3
    obtain ⟨hsp1, hop, hsp2, -⟩ := hmid
    simp only [List.length_cons, List.length_append, List.length_nil]
      at hm2 hmr hsp1 hop hsp2
    rw [show ((('(' :: render l) ++ ([' ', bopChar op, ' '] ++ render r)) ++ [')']).length =
      (render l).length + (render r).length + 5 by simp; omega] at hlen ⊢
    have hopne1 : bopChar op ≠ '(' := by cases op <;> decide
    have hopne2 : bopChar op ≠ ')' := by cases op <;> decide
    have hsp1' : s.getD (a + 1 + (render l).length) ' ' = ' ' := by
      rwa [show a + 1 + (render l).length = a + ((render l).length + 1) by omega]
    have hop' : s.getD (a + 1 + (render l).length + 1) ' ' = bopChar op := by
      rwa [show a + 1 + (render l).length + 1 = a + ((render l).length + 1) + 1 by omega]
    have hsp2' : s.getD (a + 1 + (render l).length + 2) ' ' = ' ' := by
      rwa [show a + 1 + (render l).length + 2 = a + ((render l).length + 1) + 1 + 1 by omega]
    have hmr' : matchesAt s (a + 1 + (render l).length + 3) (render r) := by
      rwa [show a + 1 + (render l).length + 3 =
        a + ((render l).length + 1) + (0 + 1 + 1 + 1) by omega]
    have hcl' : s.getD (a + 1 + (render l).length + 3 + (render r).length) ' ' = ')' := by
      rw [show a + 1 + (render l).length + 3 + (render r).length =
        a + ((render l).length + 1 + (0 + 1 + 1 + 1 + (render r).length)) by omega]
      exact hm2.1
    rw [show g + ((render l).length + (render r).length + 5) =
      ((g + (render r).length + 4) + (render l).length) + 1 by omega]
    rw [findClose_step_open s _ a d (by omega) hopen]
    rw [ihl hn.1 hw.1 s (g + (render r).length + 4) (a + 1) (d + 1) (by omega) hml
      (by omega)]
    rw [show g + (render r).length + 4 = ((g + (render r).length + 3)) + 1 by omega]
    rw [findClose_step_pass s _ (a + 1 + (render l).length) (d + 1) (by omega)
      (by rw [hsp1']; decide) (by rw [hsp1']; decide)]
    rw [show g + (render r).length + 3 = ((g + (render r).length + 2)) + 1 by omega]
    rw [findClose_step_pass s _ (a + 1 + (render l).length + 1) (d + 1) (by omega)
      (by rw [hop']; exact hopne1) (by rw [hop']; exact hopne2)]
    rw [show g + (render r).length + 2 = ((g + 1) + (render r).length) + 1 by omega]
    rw [findClose_step_pass s _ (a + 1 + (render l).length + 2) (d + 1) (by omega)
      (by rw [hsp2']; decide) (by rw [hsp2']; decide)]
    rw [show a + 1 + (render l).length + 2 + 1 = a + 1 + (render l).length + 3 by omega]
    rw [ihr hn.2 hw.2 s (g + 1) (a + 1 + (render l).length + 3) (d + 1) (by omega) hmr'
      (by omega)]
    rw [show g + 1 = g + 1 from rfl]
    rw [findClose_step_close_ne s g (a + 1 + (render l).length + 3 + (render r).length)
      (d + 1) (by omega) hcl' (by omega)]
    rw [show a + 1 + (render l).length + 3 + (render r).length + 1 =
      a + ((render l).length + (render r).length + 5) by omega,
      show d + 1 - 1 = d by ring]

/-- `findClose` on `sqrt(` followed by a rendered operand, its closing
parenthesis and any tail finds exactly that closing parenthesis. -/
theorem findClose_sqrt_tail (x : Expr) (hn : NoNeg x) (hw : WFLeaves x)
    (tail : List Char) :
    findClose (['s', 'q', 'r', 't', '('] ++ render x ++ ')' :: tail) =
      some (5 + (render x).length) := by
  have hshape : (['s', 'q', 'r', 't', '('] ++ render x ++ ')' :: tail) =
      (['s', 'q', 'r', 't', '('] ++ render x) ++ ')' :: tail := by simp
  have hmx : matchesAt (['s', 'q', 'r', 't', '('] ++ render x ++ ')' :: tail) 5
      (render x) := by
    have := matchesAt_of_append (['s', 'q', 'r', 't', '('] ++ render x ++ ')' :: tail)
      ['s', 'q', 'r', 't', '('] (render x) (')' :: tail) (by simp)
    simpa using this
  have hcl : (['s', 'q', 'r', 't', '('] ++ render x ++ ')' :: tail).getD
      (5 + (render x).length) ' ' = ')' := by
    have := matchesAt_of_append (['s', 'q', 'r', 't', '('] ++ render x ++ ')' :: tail)
      (['s', 'q', 'r', 't', '('] ++ render x) [')'] tail (by simp)
    have h1 := this.1
    rwa [show (['s', 'q', 'r', 't', '('] ++ render x).length = 5 + (render x).length
      by simp; omega] at h1
  have hlen : (['s', 'q', 'r', 't', '('] ++ render x ++ ')' :: tail).length =
      (render x).length + 6 + tail.length := by simp; omega
  unfold findClose
  rw [hlen]
  rw [show (render x).length + 6 + tail.length =
    ((tail.length + 6) + (render x).length) by omega]
  rw [findCloseAux_render x hn hw _ (tail.length + 6) 5 1 (by omega) hmx (by rw [hlen]; omega)]
  rw [show tail.length + 6 = (tail.length + 5) + 1 by omega]
  rw [findClose_step_close_eq _ (tail.length + 5) (5 + (render x).length) 1
    (by rw [hlen]; omega) hcl (by ring)]

/-! ### The backward scan of the factorial branch -/

theorem backFind_step_close (s : List Char) (i : Nat) (d : ℤ)
    (h : s.getD i ' ' = ')') : backFindAux s (i + 1) d = backFindAux s i (d + 1) := by
  simp only [backFindAux]
  rw [h]
  simp

theorem backFind_step_open_ne (s : List Char) (i : Nat) (d : ℤ)
    (h : s.getD i ' ' = '(') (hd : d - 1 ≠ 0) :
    backFindAux s (i + 1) d = backFindAux s i (d - 1) := by
  simp only [backFindAux]
  rw [h]
  simp [hd]

theorem backFind_step_open_eq (s : List Char) (i : Nat) (d : ℤ)
    (h : s.getD i ' ' = '(') (hd : d - 1 = 0) :
    backFindAux s (i + 1) d = some i := by
  simp only [backFindAux]
  rw [h]
  simp [hd]

theorem backFind_step_pass (s : List Char) (i : Nat) (d : ℤ)
    (h1 : s.getD i ' ' ≠ '(') (h2 : s.getD i ' ' ≠ ')') :
    backFindAux s (i + 1) d = backFindAux s i d := by
  simp only [backFindAux]
  rw [if_neg h2, if_neg h1]

theorem backFind_skip_nonparen (s : List Char) :
    ∀ (B : List Char) (a : Nat) (d : ℤ), (∀ c ∈ B, c ≠ '(' ∧ c ≠ ')') →
      matchesAt s a B → backFindAux s (a + B.length) d = backFindAux s a d := by
  intro B
  induction B using List.reverseRecOn with
  | nil => intro a d _ _; rfl
  | append_singleton B c ih =>
    intro a d hc hm
    rw [matchesAt_append] at hm
    have hcc : s.getD (a + B.length) ' ' = c := hm.2.1
    rw [show a + (B ++ [c]).length = (a + B.length) + 1 by
      simp only [List.length_append, List.length_cons, List.length_nil]; omega]
    rw [backFind_step_pass s (a + B.length) d (by rw [hcc]; exact (hc c (by simp)).1)
      (by rw [hcc]; exact (hc c (by simp)).2)]
    exact ih a d (fun x hx => hc x (by simp [hx])) hm.1

/-- The backward scan passes straight through any rendered neg-free subtree
when the running depth is positive. -/
theorem backFindAux_render :
    ∀ t, NoNeg t → WFLeaves t → ∀ (s : List Char) (a : Nat) (d : ℤ), 1 ≤ d →
      matchesAt s a (render t) →
      backFindAux s (a + (render t).length) d = backFindAux s a d := by
  intro t
  induction t with
  | num l =>
    intro hn hw s a d hd hm
    exact backFind_skip_nonparen s _ a d
      (fun c hc => ⟨(inert_renderLit l hw c hc).1, (inert_renderLit l hw c hc).2.1⟩) hm
  | unary op x ih =>
    intro hn hw s a d hd hm
    cases op with
    | factOp =>
      rw [render_fact_shape] at hm ⊢
      rw [matchesAt_append] at hm
      obtain ⟨⟨hopen, hmx⟩, hm2⟩ := hm
      simp only [List.length_cons] at hm2
      obtain ⟨hbang, hclose, -⟩ := hm2
      rw [show (('(' :: render x) ++ ['!', ')']).length = (render x).length + 3 by simp]
      have hbang' : s.getD (a + 1 + (render x).length) ' ' = '!' := by
        rwa [show a + 1 + (render x).length = a + ((render x).length + 1) by omega]
      have hclose' : s.getD (a + 1 + (render x).length + 1) ' ' = ')' := by
        rwa [show a + 1 + (render x).length + 1 = a + ((render x).length + 1) + 1 by omega]
      rw [show a + ((render x).length + 3) = (a + 1 + (render x).length + 1) + 1 by omega]
      rw [backFind_step_close s _ d hclose']
      rw [backFind_step_pass s _ (d + 1) (by rw [hbang']; decide) (by rw [hbang']; decide)]
      rw [ih hn.2 hw s (a + 1) (d + 1) (by omega) hmx]
      rw [show a + 1 = a + 1 from rfl]
      rw [backFind_step_open_ne s a (d + 1) hopen (by omega)]
      rw [show d + 1 - 1 = d by ring]
    | sqrtOp =>
      rw [render_sqrt_shape] at hm ⊢
      rw [matchesAt_append] at hm
      obtain ⟨hm1, hm2⟩ := hm
      rw [matchesAt_append] at hm1
      obtain ⟨hm0, hmx⟩ := hm1
      simp only [List.length_append, List.length_cons, List.length_nil] at hm2 hmx
      obtain ⟨c1, c2, c3, c4, c5, -⟩ := hm0
      obtain ⟨hcl, -⟩ := hm2
      rw [show ((['s', 'q', 'r', 't', '('] ++ render x) ++ [')']).length =
        (render x).length + 6 by simp]
      have hc2 : s.getD (a + 1) ' ' = 'q' := c2
      have hc3 : s.getD (a + 2) ' ' = 'r' := by
        rwa [show a + 2 = a + 1 + 1 by omega]
      have hc4 : s.getD (a + 3) ' ' = 't' := by
        rwa [show a + 3 = a + 1 + 1 + 1 by omega]
      have hc5 : s.getD (a + 4) ' ' = '(' := by
        rwa [show a + 4 = a + 1 + 1 + 1 + 1 by omega]
      have hmx' : matchesAt s (a + 5) (render x) := by
        rwa [show a + 5 = a + (0 + 1 + 1 + 1 + 1 + 1) by omega]
      have hcl' : s.getD (a + 5 + (render x).length) ' ' = ')' := by
        rwa [show a + 5 + (render x).length =
          a + (0 + 1 + 1 + 1 + 1 + 1 + (render x).length) by omega]
      rw [show a + ((render x).length + 6) = (a + 5 + (render x).length) + 1 by omega]
      rw [backFind_step_close s _ d hcl']
      rw [show a + 5 + (render x).length = (a + 5) + (render x).length by omega]
      rw [ih hn.2 hw s (a + 5) (d + 1) (by omega) hmx']
      rw [show a + 5 = (a + 4) + 1 by omega]
      rw [backFind_step_open_ne s (a + 4) (d + 1) hc5 (by omega)]
      rw [show d + 1 - 1 = d by ring]
      rw [show a + 4 = (a + 3) + 1 by omega]
      rw [backFind_step_pass s (a + 3) d (by rw [hc4]; decide) (by rw [hc4]; decide)]
      rw [show a + 3 = (a + 2) + 1 by omega]
      rw [backFind_step_pass s (a + 2) d (by rw [hc3]; decide) (by rw [hc3]; decide)]
      rw [show a + 2 = (a + 1) + 1 by omega]
      rw [backFind_step_pass s (a + 1) d (by rw [hc2]; decide) (by rw [hc2]; decide)]
      rw [show a + 1 = a + 1 from rfl]
      rw [backFind_step_pass s a d (by rw [c1]; decide) (by rw [c1]; decide)]
    | negOp => exact absurd rfl hn.1
  | binary op l r ihl ihr =>
    intro hn hw s a d hd hm
    rw [render_bin_shape] at hm ⊢
    rw [matchesAt_append] at hm
    obtain ⟨hm1, hm2⟩ := hm
    rw [matchesAt_append] at hm1
    obtain ⟨⟨hopen, hml⟩, hm3⟩ := hm1
    rw [matchesAt_append] at hm3
    obtain ⟨hmid, hmr⟩ := hm3
    obtain ⟨hsp1, hop, hsp2, -⟩ := hmid
    simp only [List.length_cons, List.length_append, List.length_nil]
      at hm2 hmr hsp1 hop hsp2
    rw [show ((('(' :: render l) ++ ([' ', bopChar op, ' '] ++ render r)) ++ [')']).length =
      (render l).length + (render r).length + 5 by simp; omega]
    have hopne1 : bopChar op ≠ '(' := by cases op <;> decide
    have hopne2 : bopChar op ≠ ')' := by cases op <;> decide
    have hsp1' : s.getD (a + 1 + (render l).length) ' ' = ' ' := by
      rwa [show a + 1 + (render l).length = a + ((render l).length + 1) by omega]
    have hop' : s.getD (a + 1 + (render l).length + 1) ' ' = bopChar op := by
      rwa [show a + 1 + (render l).length + 1 = a + ((render l).length + 1) + 1 by omega]
    have hsp2' : s.getD (a + 1 + (render l).length + 2) ' ' = ' ' := by
      rwa [show a + 1 + (render l).length + 2 = a + ((render l).length + 1) + 1 + 1 by omega]
    have hmr' : matchesAt s (a + 1 + (render l).length + 3) (render r) := by
      rwa [show a + 1 + (render l).length + 3 =
        a + ((render l).length + 1) + (0 + 1 + 1 + 1) by omega]
    have hcl' : s.getD (a + 1 + (render l).length + 3 + (render r).length) ' ' = ')' := by
      rw [show a + 1 + (render l).length + 3 + (render r).length =
        a + ((render l).length + 1 + (0 + 1 + 1 + 1 + (render r).length)) by omega]
      exact hm2.1
    rw [show a + ((render l).length + (render r).length + 5) =
      (a + 1 + (render l).length + 3 + (render r).length) + 1 by omega]
    rw [backFind_step_close s _ d hcl']
    rw [show a + 1 + (render l).length + 3 + (render r).length =
      (a + 1 + (render l).length + 3) + (render r).length by omega]
    rw [ihr hn.2 hw.2 s (a + 1 + (render l).length + 3) (d + 1) (by omega) hmr']
    rw [show a + 1 + (render l).length + 3 = (a + 1 + (render l).length + 2) + 1 by omega]
    rw [backFind_step_pass s _ (d + 1) (by rw [hsp2']; decide) (by rw [hsp2']; decide)]
    rw [show a + 1 + (render l).length + 2 = (a + 1 + (render l).length + 1) + 1 by omega]
    rw [backFind_step_pass s _ (d + 1) (by rw [hop']; exact hopne1)
      (by rw [hop']; exact hopne2)]
    rw [show a + 1 + (render l).length + 1 = (a + 1 + (render l).length) + 1 by omega]
    rw [backFind_step_pass s _ (d + 1) (by rw [hsp1']; decide) (by rw [hsp1']; decide)]
    rw [show a + 1 + (render l).length = (a + 1) + (render l).length by omega]
    rw [ihl hn.1 hw.1 s (a + 1) (d + 1) (by omega) hml]
    rw [show a + 1 = a + 1 from rfl]
    rw [backFind_step_open_ne s a (d + 1) hopen (by omega)]
    rw [show d + 1 - 1 = d by ring]

/-- The backward scan over a rendered factorial node `(X!)` (started just
inside its final parenthesis) finds the opening parenthesis at index 0. -/
theorem backFind_render_fact (y : Expr) (hn : NoNeg y) (hw : WFLeaves y) :
    backFindAux (render (.unary .factOp y))
      ((render (.unary .factOp y)).length - 1) 1 = some 0 := by
  rw [render_fact_shape]
  have hlen : ((('(' :: render y) ++ ['!', ')']).length) = (render y).length + 3 := by
    simp
  have hmy : matchesAt (('(' :: render y) ++ ['!', ')']) 1 (render y) := by
    have := matchesAt_of_append (('(' :: render y) ++ ['!', ')'])
      ['('] (render y) ['!', ')'] (by simp)
    simpa using this
  have hbang : (('(' :: render y) ++ ['!', ')']).getD ((render y).length + 1) ' ' = '!' := by
    have := matchesAt_of_append (('(' :: render y) ++ ['!', ')'])
      ('(' :: render y) ['!'] [')'] (by simp)
    have h1 := this.1
    rwa [show ('(' :: render y).length = (render y).length + 1 by simp] at h1
  have hopen : (('(' :: render y) ++ ['!', ')']).getD 0 ' ' = '(' := rfl
  rw [hlen]
  rw [show (render y).length + 3 - 1 = ((render y).length + 1) + 1 by omega]
  rw [backFind_step_pass _ _ 1 (by rw [hbang]; decide) (by rw [hbang]; decide)]
  rw [show (render y).length + 1 = 1 + (render y).length by omega]
  rw [backFindAux_render y hn hw _ 1 1 (by omega) hmy]
  rw [show (1 : Nat) = 0 + 1 from rfl]
  rw [backFind_step_open_eq _ 0 1 hopen (by ring)]

/-- The backward scan over a rendered binary node `(L op R)` (started just
inside its final parenthesis) finds the opening parenthesis at index 0. -/
theorem backFind_render_binary (op : BOp) (l r : Expr)
    (hnl : NoNeg l) (hwl : WFLeaves l) (hnr : NoNeg r) (hwr : WFLeaves r) :
    backFindAux (render (.binary op l r))
      ((render (.binary op l r)).length - 1) 1 = some 0 := by
  rw [render_bin_shape]
  have hopne1 : bopChar op ≠ '(' := by cases op <;> decide
  have hopne2 : bopChar op ≠ ')' := by cases op <;> decide
  have hml : matchesAt ((('(' :: render l) ++ ([' ', bopChar op, ' '] ++ render r)) ++ [')'])
      1 (render l) := by
    have := matchesAt_of_append
      ((('(' :: render l) ++ ([' ', bopChar op, ' '] ++ render r)) ++ [')'])
      ['('] (render l) ([' ', bopChar op, ' '] ++ render r ++ [')']) (by simp)
    simpa using this
  have hmid : matchesAt ((('(' :: render l) ++ ([' ', bopChar op, ' '] ++ render r)) ++ [')'])
      ((render l).length + 1) [' ', bopChar op, ' '] := by
    have := matchesAt_of_append
      ((('(' :: render l) ++ ([' ', bopChar op, ' '] ++ render r)) ++ [')'])
      ('(' :: render l) [' ', bopChar op, ' '] (render r ++ [')']) (by simp)
    rwa [show ('(' :: render l).length = (render l).length + 1 by simp] at this
  have hmr : matchesAt ((('(' :: render l) ++ ([' ', bopChar op, ' '] ++ render r)) ++ [')'])
      ((render l).length + 4) (render r) := by
    have := matchesAt_of_append
      ((('(' :: render l) ++ ([' ', bopChar op, ' '] ++ render r)) ++ [')'])
      (('(' :: render l) ++ [' ', bopChar op, ' ']) (render r) [')'] (by simp)
    rwa [show (('(' :: render l) ++ [' ', bopChar op, ' ']).length =
      (render l).length + 4 by simp] at this
  obtain ⟨g1, g2, g3, -⟩ := hmid
  have hopen : ((('(' :: render l) ++ ([' ', bopChar op, ' '] ++ render r)) ++ [')']).getD
      0 ' ' = '(' := rfl
  rw [show ((('(' :: render l) ++ ([' ', bopChar op, ' '] ++ render r)) ++ [')']).length =
    (render l).length + (render r).length + 5 by simp; omega]
  rw [show (render l).length + (render r).length + 5 - 1 =
    ((render l).length + 4) + (render r).length by omega]
  rw [backFindAux_render r hnr hwr _ ((render l).length + 4) 1 (by omega) hmr]
  rw [show (render l).length + 4 = ((render l).length + 3) + 1 by omega]
  rw [backFind_step_pass _ _ 1
    (by rw [show (render l).length + 3 = (render l).length + 1 + 1 + 1 by omega, g3]; decide)
    (by rw [show (render l).length + 3 = (render l).length + 1 + 1 + 1 by omega, g3]; decide)]
  rw [show (render l).length + 3 = ((render l).length + 2) + 1 by omega]
  rw [backFind_step_pass _ _ 1
    (by rw [show (render l).length + 2 = (render l).length + 1 + 1 by omega, g2]
        exact hopne1)
    (by rw [show (render l).length + 2 = (render l).length + 1 + 1 by omega, g2]
        exact hopne2)]
  rw [show (render l).length + 2 = ((render l).length + 1) + 1 by omega]
  rw [backFind_step_pass _ _ 1 (by rw [g1]; decide) (by rw [g1]; decide)]
  rw [show (render l).length + 1 = 1 + (render l).length by omega]
  rw [backFindAux_render l hnl hwl _ 1 1 (by omega) hml]
  rw [show (1 : Nat) = 0 + 1 from rfl]
  rw [backFind_step_open_eq _ 0 1 hopen (by ring)]

/-! ### `Decimal` round-trips on the literals this program renders -/

theorem takeWhile_append_of_all (p : Char → Bool) :
    ∀ (A B : List Char), (∀ c ∈ A, p c = true) →
      (A ++ B).takeWhile p = A ++ B.takeWhile p ∧
        (A ++ B).dropWhile p = B.dropWhile p := by
  intro A
  induction A with
  | nil => intro B _; simp
  | cons c A ih =>
    intro B hall
    have hc : p c = true := hall c (by simp)
    have := ih B (fun x hx => hall x (by simp [hx]))
    simp [List.takeWhile_cons, List.dropWhile_cons, hc, this.1, this.2]

theorem map_digitVal_map_digitChar (ds : List Nat) (h : ∀ d ∈ ds, d < 10) :
    (ds.map digitChar).map digitVal = ds := by
  induction ds with
  | nil => rfl
  | cons d rest ih =>
    simp only [List.map_cons, digitVal_digitChar d (h d (by simp)),
      ih fun x hx => h x (by simp [hx])]

theorem normIp_of_normal (ds : List Nat) (hne : ds ≠ [])
    (hh : ds = [0] ∨ ds.headD 0 ≠ 0) : normIp ds = ds := by
  rcases hh with rfl | hh
  · rfl
  · cases ds with
    | nil => exact absurd rfl hne
    | cons d rest =>
      cases d with
      | zero => exact absurd rfl hh
      | succ k => rfl

theorem headD_all_digit (A : List Char) (hA : ∀ c ∈ A, c.isDigit = true)
    (hne : A ≠ []) : (A.headD ' ').isDigit = true := by
  cases A with
  | nil => exact absurd rfl hne
  | cons c rest => exact hA c (by simp)

/-- `Decimal(str(d))` recovers the stored literal: parsing the rendered
form of a well-formed literal gives back that literal. -/
theorem parseDecLit_renderLit (l : DecLit) (h : l.WF) :
    parseDecLit (renderLit l) = some l := by
  obtain ⟨sg, ip, fp⟩ := l
  obtain ⟨hs, hip, hh, hipd, hfpd⟩ := h
  dsimp only at hs hip hh hipd hfpd
  subst hs
  have hipc : ∀ c ∈ ip.map digitChar, c.isDigit = true := by
    intro c hc
    obtain ⟨d, hd, rfl⟩ := List.mem_map.mp hc
    exact digitChar_isDigit d (hipd d hd)
  have hfpc : ∀ c ∈ fp.map digitChar, c.isDigit = true := by
    intro c hc
    obtain ⟨d, hd, rfl⟩ := List.mem_map.mp hc
    exact digitChar_isDigit d (hfpd d hd)
  have hipcne : ip.map digitChar ≠ [] := by
    simpa using hip
  by_cases hfp : fp = []
  · subst hfp
    have hrl : renderLit ⟨false, ip, []⟩ = ip.map digitChar := by
      simp [renderLit]
    have hhead : ((ip.map digitChar).headD ' ').isDigit = true :=
      headD_all_digit _ hipc hipcne
    obtain ⟨-, -, hplus, hnm, -⟩ := digit_ne_all _ hhead
    have hs1 : (if (ip.map digitChar).headD ' ' = '-' ∨
        (ip.map digitChar).headD ' ' = '+' then (ip.map digitChar).drop 1
        else ip.map digitChar) = ip.map digitChar :=
      if_neg (not_or.mpr ⟨hnm, hplus⟩)
    rw [hrl, parseDecLit]
    simp only
    rw [hs1]
    rw [List.takeWhile_eq_self_iff.mpr hipc]
    rw [List.dropWhile_eq_nil_iff.mpr (fun c hc => hipc c hc)]
    rw [if_pos rfl, if_neg hipcne]
    rw [map_digitVal_map_digitChar ip hipd, normIp_of_normal ip hip hh,
      decide_eq_false hnm]
  · have hrl : renderLit ⟨false, ip, fp⟩ =
        ip.map digitChar ++ '.' :: fp.map digitChar := by
      simp [renderLit, hfp]
    have hhead : ((ip.map digitChar ++ '.' :: fp.map digitChar).headD ' ').isDigit
        = true := by
      rw [headD_append_left _ _ hipcne]
      exact headD_all_digit _ hipc hipcne
    obtain ⟨-, -, hplus, hnm, -⟩ := digit_ne_all _ hhead
    have htw := takeWhile_append_of_all Char.isDigit (ip.map digitChar)
      ('.' :: fp.map digitChar) hipc
    have hs1 : (if (ip.map digitChar ++ '.' :: fp.map digitChar).headD ' ' = '-' ∨
        (ip.map digitChar ++ '.' :: fp.map digitChar).headD ' ' = '+' then
        (ip.map digitChar ++ '.' :: fp.map digitChar).drop 1
        else ip.map digitChar ++ '.' :: fp.map digitChar) =
        ip.map digitChar ++ '.' :: fp.map digitChar :=
      if_neg (not_or.mpr ⟨hnm, hplus⟩)
    rw [hrl, parseDecLit]
    simp only
    rw [hs1]
    rw [htw.1, htw.2]
    rw [show ('.' :: fp.map digitChar).takeWhile Char.isDigit = [] by
      rw [List.takeWhile_cons, if_neg (by decide)]]
    rw [show ('.' :: fp.map digitChar).dropWhile Char.isDigit =
      '.' :: fp.map digitChar by rw [List.dropWhile_cons, if_neg (by decide)]]
    rw [List.append_nil]
    rw [if_neg (by simp)]
    rw [if_pos (show ('.' :: fp.map digitChar).headD ' ' = '.' from rfl)]
    simp only [List.drop_one, List.tail_cons]
    rw [List.takeWhile_eq_self_iff.mpr hfpc]
    rw [List.dropWhile_eq_nil_iff.mpr (fun c hc => hfpc c hc)]
    rw [if_neg (by simp)]
    rw [if_neg (by simp [hipcne])]
    rw [map_digitVal_map_digitChar ip hipd, map_digitVal_map_digitChar fp hfpd,
      normIp_of_normal ip hip hh, decide_eq_false hnm]

/-! ### Remaining pieces for the round-trip theorem -/

theorem bopOfChar_bopChar (op : BOp) : bopOfChar (bopChar op) = some op := by
  cases op <;> rfl

theorem render_head_ne_minus (t : Expr) (hn : NoNeg t) (hw : WFLeaves t) :
    (render t).headD ' ' ≠ '-' := by
  rcases render_head t hn hw with h | h | h
  · rw [h]; decide
  · rw [h]; decide
  · exact (digit_ne_all _ h).2.2.2.1

theorem take5_ne_sqrt (s : List Char) (h : s.headD ' ' ≠ 's') :
    ¬(s.take 5 = ['s', 'q', 'r', 't', '(']) := by
  intro heq
  cases s with
  | nil => simp at heq
  | cons c rest =>
    rw [List.take_succ_cons] at heq
    exact h (List.cons_eq_cons.mp heq).1

/-- No root-level operator is found in `X!` for a rendered neg-free `X`. -/
theorem scanBand_factStr_none (band : List Char) (hband : band ⊆ binChars)
    (x : Expr) (hn : NoNeg x) (hw : WFLeaves x) :
    scanBand (render x ++ ['!']) band = none := by
  unfold scanBand
  rw [show (render x ++ ['!']).length = (render x).length + 1 by simp]
  have hbang : (render x ++ ['!']).getD (render x).length ' ' = '!' :=
    (matchesAt_of_append (render x ++ ['!']) (render x) ['!'] [] (by simp)).1
  rw [scanAux_pass _ band _ 0 (by rw [hbang]; decide) (by rw [hbang]; decide)
    (Or.inr (by rw [hbang]; intro hc; have := hband hc; simp [binChars] at this))]
  have hmx : matchesAt (render x ++ ['!']) 0 (render x) := by
    have := matchesAt_of_append (render x ++ ['!']) [] (render x) ['!'] (by simp)
    simpa using this
  rw [show (render x).length = 0 + (render x).length by omega]
  rw [scanAux_render band hband x hn hw _ 0 0 (le_refl 0) hmx]
  rfl

/-- Splitting `L op R` at the root operator parses both operands and
rebuilds the binary node. -/
theorem splitAt_binStr (fuel : Nat) (op : BOp) (l r : Expr)
    (hnl : NoNeg l) (hwl : WFLeaves l) (hnr : NoNeg r) (hwr : WFLeaves r)
    (hl : parse fuel (render l) = some l) (hr : parse fuel (render r) = some r) :
    splitAt (parse fuel) (binStr l op r) ((render l).length + 1) =
      some (.binary op l r) := by
  have hgd : (binStr l op r).getD ((render l).length + 1) ' ' = bopChar op :=
    (binStr_matches l op r).2.1.2.1
  have htake : (binStr l op r).take ((render l).length + 1) = render l ++ [' '] := by
    rw [binStr, List.take_append_eq_append_take,
      List.take_of_length_le (by omega), show (render l).length + 1 -
        (render l).length = 1 by omega, List.take_succ_cons, List.take_zero]
  have hdrop : (binStr l op r).drop ((render l).length + 1 + 1) = ' ' :: render r := by
    rw [binStr, List.drop_append_eq_append_drop,
      List.drop_of_length_le (by omega), show (render l).length + 1 + 1 -
        (render l).length = 2 by omega]
    rfl
  have hrhead : (render r).headD ' ' ≠ '-' := render_head_ne_minus r hnr hwr
  rw [splitAt]
  dsimp only
  rw [hgd, htake, hdrop]
  rw [trim_concat_ws (render l) (render_head_not_ws l hnl hwl)
    (render_last_not_ws l hnl hwl)]
  rw [trim_ws_cons (render r) (render_head_not_ws r hnr hwr)
    (render_last_not_ws r hnr hwr)]
  rw [if_neg (by simp [render_ne_nil l hwl, render_ne_nil r hwr])]
  rw [if_neg (by rintro ⟨-, hneg⟩; exact hrhead hneg)]
  rw [bopOfChar_bopChar, hl, hr]
  rfl

theorem renderLit_head_digit (l : DecLit) (h : l.WF) :
    ((renderLit l).headD ' ').isDigit = true := by
  obtain ⟨hs, hip, -, hd, -⟩ := h
  rw [renderLit, hs]
  simp only [if_false, Bool.false_eq_true, List.nil_append]
  cases hip' : l.ip with
  | nil => exact absurd hip' hip
  | cons d rest =>
    simp only [List.map_cons, List.cons_append, List.headD_cons]
    exact digitChar_isDigit d (hd d (by rw [hip']; simp))

theorem renderLit_last_digit (l : DecLit) (h : l.WF) :
    ((renderLit l).getLastD ' ').isDigit = true := by
  obtain ⟨hs, hip, -, hd, hf⟩ := h
  rw [renderLit, hs]
  simp only [if_false, Bool.false_eq_true, List.nil_append]
  by_cases hfp : l.fp = []
  · rcases List.eq_nil_or_concat l.ip with hnil | ⟨ip', d, hip'⟩
    · exact absurd hnil hip
    · rw [hip', hfp]
      simp only [List.concat_eq_append, List.map_append, List.map_cons, List.map_nil]
      rw [if_pos trivial, List.append_nil, List.getLastD_concat]
      exact digitChar_isDigit d (hd d (by rw [hip']; simp))
  · rcases List.eq_nil_or_concat l.fp with hnil | ⟨fp', d, hfp'⟩
    · exact absurd hnil hfp
    · rw [if_neg hfp, hfp']
      simp only [List.concat_eq_append, List.map_append, List.map_cons, List.map_nil]
      rw [show List.map digitChar l.ip ++
          '.' :: (List.map digitChar fp' ++ [digitChar d]) =
        (List.map digitChar l.ip ++ '.' :: List.map digitChar fp') ++
          [digitChar d] by simp, List.getLastD_concat]
      exact digitChar_isDigit d (hf d (by rw [hfp']; simp))

/-- The round-trip theorem: parsing the canonical rendering of any neg-free
tree with well-formed leaves recovers exactly that tree, given fuel
exceeding its depth. -/
theorem parse_render : ∀ (fuel : Nat) (t : Expr), NoNeg t → WFLeaves t →
    t.depth < fuel → parse fuel (render t) = some t := by
  intro fuel
  induction fuel with
  | zero => intro t _ _ hdep; omega
  | succ fuel ih =>
    intro t hn hw hdep
    simp only [parse]
    rw [trim_render t hn hw, if_neg (render_ne_nil t hw)]
    cases t with
    | num l =>
      have hdg := renderLit_head_digit l hw
      obtain ⟨e1, -, -, -, -, -, -, -, -, -, e11, -⟩ := digit_ne_all _ hdg
      have hstrip : stripParens (render (.num l)) = some (render (.num l)) :=
        stripParens_stop _ (Or.inl (by rintro ⟨hp, -⟩; exact e1 hp))
      rw [hstrip]
      dsimp only
      rw [scanBand_render_none ['^'] (by decide) (.num l) trivial hw]
      dsimp only
      rw [scanBand_render_none ['*', '/', '%'] (by decide) (.num l) trivial hw]
      dsimp only
      rw [scanBand_render_none ['+', '-'] (by decide) (.num l) trivial hw]
      dsimp only
      rw [parseNoBin]
      have htake5 : ¬((render (.num l)).take 5 = ['s', 'q', 'r', 't', '(']) :=
        take5_ne_sqrt _ e11
      have hlast : (render (.num l)).getLastD ' ' ≠ '!' :=
        (digit_ne_all _ (renderLit_last_digit l hw)).2.2.2.2.2.2.2.2.1
      have hhm : (render (.num l)).headD ' ' ≠ '-' :=
        render_head_ne_minus (.num l) trivial hw
      have hpd : parseDecLit (render (.num l)) = some l := parseDecLit_renderLit l hw
      rw [if_neg htake5, if_neg hlast, if_neg hhm, hpd]
    | unary op x =>
      cases op with
      | factOp =>
        simp only [Expr.depth] at hdep
        have hxne := render_ne_nil x hw
        rw [stripParens_render_fact x hn.2 hw]
        dsimp only
        rw [scanBand_factStr_none ['^'] (by decide) x hn.2 hw]
        dsimp only
        rw [scanBand_factStr_none ['*', '/', '%'] (by decide) x hn.2 hw]
        dsimp only
        rw [scanBand_factStr_none ['+', '-'] (by decide) x hn.2 hw]
        dsimp only
        rw [parseNoBin]
        cases x with
        | num lit =>
          have hdg := renderLit_head_digit lit hw
          obtain ⟨-, -, -, -, -, -, -, -, -, -, e11, -⟩ := digit_ne_all _ hdg
          have htake5 : ¬((render (.num lit) ++ ['!']).take 5 =
              ['s', 'q', 'r', 't', '(']) := by
            apply take5_ne_sqrt
            rw [headD_append_left _ _ hxne]
            exact e11
          have hlast : (render (.num lit) ++ ['!']).getLastD ' ' = '!' := by
            rw [List.getLastD_concat]
          rw [if_neg htake5, if_pos hlast]
          dsimp only
          rw [show (render (.num lit) ++ ['!']).dropLast = render (.num lit) by
            rw [List.dropLast_concat]]
          rw [trim_render (.num lit) trivial hw]
          rw [if_neg hxne]
          rw [if_neg (show ¬((render (.num lit)).getLastD ' ' = ')') from
            (digit_ne_all _ (renderLit_last_digit lit hw)).2.1)]
          rw [ih (.num lit) trivial hw (by simp only [Expr.depth]; omega)]
          rfl
        | unary op2 y =>
          cases op2 with
          | factOp =>
            have hhd : (render (.unary .factOp y) ++ ['!']).headD ' ' = '(' := by
              rw [headD_append_left _ _ hxne]
              rfl
            rw [if_neg (take5_ne_sqrt _ (by rw [hhd]; decide))]
            have hlast : (render (.unary .factOp y) ++ ['!']).getLastD ' ' = '!' := by
              rw [List.getLastD_concat]
            rw [if_pos hlast]
            dsimp only
            rw [show (render (.unary .factOp y) ++ ['!']).dropLast =
              render (.unary .factOp y) by rw [List.dropLast_concat]]
            rw [trim_render (.unary .factOp y) hn.2 hw]
            rw [if_neg hxne]
            rw [if_pos (show (render (.unary .factOp y)).getLastD ' ' = ')' from by
              rw [show render (.unary .factOp y) =
                (('(' :: render y) ++ ['!']) ++ [')'] by simp [render],
                List.getLastD_concat])]
            rw [backFind_render_fact y hn.2.2 hw]
            dsimp only
            rw [if_neg (by simp)]
            rw [ih (.unary .factOp y) hn.2 hw (by simp only [Expr.depth] at hdep ⊢; omega)]
            rfl
          | sqrtOp =>
            have hsh : render (.unary .sqrtOp y) ++ ['!'] =
                ['s', 'q', 'r', 't', '('] ++ render y ++ ')' :: ['!'] := by
              simp [render]
            rw [hsh]
            rw [if_pos (show (['s', 'q', 'r', 't', '('] ++ render y ++
              ')' :: ['!']).take 5 = ['s', 'q', 'r', 't', '('] from rfl)]
            rw [findClose_sqrt_tail y hn.2.2 hw ['!']]
            dsimp only
            rw [show (['s', 'q', 'r', 't', '('] ++ render y ++ ')' :: ['!']).drop 5 =
              render y ++ ')' :: ['!'] from rfl]
            rw [show 5 + (render y).length - 5 = (render y).length by omega]
            rw [show (render y ++ ')' :: ['!']).take (render y).length = render y from
              List.take_left _ _]
            rw [if_neg (render_ne_nil y hw)]
            rw [if_pos (show 5 + (render y).length + 1 <
              (['s', 'q', 'r', 't', '('] ++ render y ++ ')' :: ['!']).length from by
                simp only [List.length_append, List.length_cons, List.length_nil]
                omega)]
            have hdrop : (['s', 'q', 'r', 't', '('] ++ render y ++
                ')' :: ['!']).drop (5 + (render y).length + 1) = ['!'] := by
              rw [show (['s', 'q', 'r', 't', '('] ++ render y ++ ')' :: ['!']) =
                (['s', 'q', 'r', 't', '('] ++ render y ++ [')']) ++ ['!'] by simp]
              rw [List.drop_append_eq_append_drop]
              rw [List.drop_of_length_le (by
                simp only [List.length_append, List.length_cons, List.length_nil]
                omega)]
              rw [show 5 + (render y).length + 1 -
                (['s', 'q', 'r', 't', '('] ++ render y ++ [')']).length = 0 by
                simp only [List.length_append, List.length_cons, List.length_nil]
                omega]
              rfl
            rw [hdrop]
            rw [show trim ['!'] = ['!'] from trim_eq_self _ (by decide) (by decide)]
            rw [if_neg (by simp)]
            rw [if_pos (show (['!'] : List Char).headD ' ' = '!' from rfl)]
            rw [if_neg (by decide)]
            rw [ih y hn.2.2 hw (by simp only [Expr.depth] at hdep; omega)]
            rfl
          | negOp => exact absurd rfl hn.2.1
        | binary op2 a b =>
          have hhd : (render (.binary op2 a b) ++ ['!']).headD ' ' = '(' := by
            rw [headD_append_left _ _ hxne]
            rfl
          rw [if_neg (take5_ne_sqrt _ (by rw [hhd]; decide))]
          have hlast : (render (.binary op2 a b) ++ ['!']).getLastD ' ' = '!' := by
            rw [List.getLastD_concat]
          rw [if_pos hlast]
          dsimp only
          rw [show (render (.binary op2 a b) ++ ['!']).dropLast =
            render (.binary op2 a b) by rw [List.dropLast_concat]]
          rw [trim_render (.binary op2 a b) hn.2 hw]
          rw [if_neg hxne]
          rw [if_pos (show (render (.binary op2 a b)).getLastD ' ' = ')' from by
            rw [render_bin_shape, List.getLastD_concat])]
          rw [backFind_render_binary op2 a b hn.2.1 hw.1 hn.2.2 hw.2]
          dsimp only
          rw [if_neg (by simp)]
          rw [ih (.binary op2 a b) hn.2 hw (by simp only [Expr.depth] at hdep ⊢; omega)]
          rfl
      | sqrtOp =>
        have hstrip : stripParens (render (.unary .sqrtOp x)) =
            some (render (.unary .sqrtOp x)) :=
          stripParens_stop _ (Or.inl (by
            rintro ⟨hp, -⟩
            rw [show (render (.unary .sqrtOp x)).headD ' ' = 's' from rfl] at hp
            exact absurd hp (by decide)))
        rw [hstrip]
        dsimp only
        rw [scanBand_render_none ['^'] (by decide) (.unary .sqrtOp x) hn hw]
        dsimp only
        rw [scanBand_render_none ['*', '/', '%'] (by decide) (.unary .sqrtOp x) hn hw]
        dsimp only
        rw [scanBand_render_none ['+', '-'] (by decide) (.unary .sqrtOp x) hn hw]
        dsimp only
        rw [parseNoBin]
        have hsh : render (.unary .sqrtOp x) =
            ['s', 'q', 'r', 't', '('] ++ render x ++ ')' :: [] := by
          simp [render]
        rw [hsh]
        rw [if_pos (show (['s', 'q', 'r', 't', '('] ++ render x ++
          ')' :: []).take 5 = ['s', 'q', 'r', 't', '('] from rfl)]
        rw [findClose_sqrt_tail x hn.2 hw []]
        dsimp only
        rw [show (['s', 'q', 'r', 't', '('] ++ render x ++ ')' :: []).drop 5 =
          render x ++ ')' :: [] from rfl]
        rw [show 5 + (render x).length - 5 = (render x).length by omega]
        rw [show (render x ++ ')' :: []).take (render x).length = render x from
          List.take_left _ _]
        rw [if_neg (render_ne_nil x hw)]
        rw [if_neg (show ¬(5 + (render x).length + 1 <
          (['s', 'q', 'r', 't', '('] ++ render x ++ ')' :: []).length) from by
            simp only [List.length_append, List.length_cons, List.length_nil]
            omega)]
        rw [ih x hn.2 hw (by simp only [Expr.depth] at hdep; omega)]
        rfl
      | negOp => exact absurd rfl hn.1
    | binary op l r =>
      simp only [Expr.depth] at hdep
      rw [stripParens_render_binary op l r hn.1 hw.1 hn.2 hw.2]
      dsimp only
      have hl : parse fuel (render l) = some l :=
        ih l hn.1 hw.1 (by omega)
      have hr : parse fuel (render r) = some r :=
        ih r hn.2 hw.2 (by omega)
      have hsplit := splitAt_binStr fuel op l r hn.1 hw.1 hn.2 hw.2 hl hr
      cases op with
      | powOp =>
        rw [scanBand_binStr_mem l .powOp r ['^'] (by decide) hn.1 hw.1 hn.2 hw.2
          (by decide)]
        dsimp only
        exact hsplit
      | mul =>
        rw [scanBand_binStr_notmem l .mul r ['^'] (by decide) hn.1 hw.1 hn.2 hw.2
          (by decide)]
        dsimp only
        rw [scanBand_binStr_mem l .mul r ['*', '/', '%'] (by decide) hn.1 hw.1 hn.2 hw.2
          (by decide)]
        dsimp only
        exact hsplit
      | div =>
        rw [scanBand_binStr_notmem l .div r ['^'] (by decide) hn.1 hw.1 hn.2 hw.2
          (by decide)]
        dsimp only
        rw [scanBand_binStr_mem l .div r ['*', '/', '%'] (by decide) hn.1 hw.1 hn.2 hw.2
          (by decide)]
        dsimp only
        exact hsplit
      | modOp =>
        rw [scanBand_binStr_notmem l .modOp r ['^'] (by decide) hn.1 hw.1 hn.2 hw.2
          (by decide)]
        dsimp only
        rw [scanBand_binStr_mem l .modOp r ['*', '/', '%'] (by decide) hn.1 hw.1 hn.2
          hw.2 (by decide)]
        dsimp only
        exact hsplit
      | add =>
        rw [scanBand_binStr_notmem l .add r ['^'] (by decide) hn.1 hw.1 hn.2 hw.2
          (by decide)]
        dsimp only
        rw [scanBand_binStr_notmem l .add r ['*', '/', '%'] (by decide) hn.1 hw.1 hn.2
          hw.2 (by decide)]
        dsimp only
        rw [scanBand_binStr_mem l .add r ['+', '-'] (by decide) hn.1 hw.1 hn.2 hw.2
          (by decide)]
        dsimp only
        exact hsplit
      | sub =>
        rw [scanBand_binStr_notmem l .sub r ['^'] (by decide) hn.1 hw.1 hn.2 hw.2
          (by decide)]
        dsimp only
        rw [scanBand_binStr_notmem l .sub r ['*', '/', '%'] (by decide) hn.1 hw.1 hn.2
          hw.2 (by decide)]
        dsimp only
        rw [scanBand_binStr_mem l .sub r ['+', '-'] (by decide) hn.1 hw.1 hn.2 hw.2
          (by decide)]
        dsimp only
        exact hsplit

/-! ### Claim C1: the round-trip law -/

theorem litPool_WF (s : Nat) (h1 : 1 ≤ s) (h9 : s ≤ 9) (l : DecLit)
    (hl : l ∈ litPool s) : l.WF := by
  interval_cases s <;> (fin_cases hl <;> decide)

theorem buildable_WFLeaves : ∀ t, BuildableLeaves t → WFLeaves t := by
  intro t
  induction t with
  | num l =>
    rintro ⟨s, h1, h9, hl⟩
    exact litPool_WF s h1 h9 l hl
  | unary op x ih => exact fun h => ih h
  | binary op l r ihl ihr => exact fun h => ⟨ihl h.1, ihr h.2⟩

/-- The structural depth of a tree is strictly below its rendered length
(so `parseTop`'s fuel always suffices). -/
theorem depth_lt_render_length : ∀ t, WFLeaves t → t.depth < (render t).length := by
  intro t
  induction t with
  | num l =>
    intro hw
    exact List.length_pos.mpr (renderLit_ne_nil l hw)
  | unary op x ih =>
    intro hw
    have hx := ih hw
    cases op with
    | factOp =>
      rw [render_fact_shape]
      simp only [Expr.depth, List.length_append, List.length_cons, List.length_nil]
      omega
    | sqrtOp =>
      rw [render_sqrt_shape]
      simp only [Expr.depth, List.length_append, List.length_cons, List.length_nil]
      omega
    | negOp =>
      simp only [Expr.depth, render]
      split
      · simp only [List.length_cons]
        omega
      · simp only [List.length_cons, List.length_append, List.length_nil]
        omega
  | binary op l r ihl ihr =>
    intro hw
    have h1 := ihl hw.1
    have h2 := ihr hw.2
    rw [render_bin_shape]
    simp only [Expr.depth, List.length_append, List.length_cons, List.length_nil]
    omega

/-- C1 counterexample: the tree `1 - (-1)` has leaves from the seed-1 pool
and evaluates successfully to `2`, yet parsing its canonical rendering
`(1 - -1)` fails — the round-trip law does not hold for every tree the
strategies can build, because rendered `neg` nodes break the splitter. -/
theorem c1_counterexample :
    BuildableLeaves (.binary .sub (.num (singleLit 1))
        (.unary .negOp (.num (singleLit 1)))) ∧
      evaluate (.binary .sub (.num (singleLit 1))
        (.unary .negOp (.num (singleLit 1)))) = some 2 ∧
      parseTop (render (.binary .sub (.num (singleLit 1))
        (.unary .negOp (.num (singleLit 1))))) = none := by
  refine ⟨by decide, ?_, by decide⟩
  have hl : litVal (singleLit 1) = 1 := by norm_num [litVal, singleLit, List.foldl]
  norm_num [evaluate, hl, checkOverflow, MAX_NUMBER, Expr.isNegNode]

/-- C1 (corrected to neg-free trees): for every tree the strategies can
build that contains no `neg` node, parsing the rendered canonical string
succeeds and the recovered tree evaluates to the same value as the
original (indeed it is structurally identical). -/
theorem c1_round_trip_eval (t : Expr) (hb : BuildableLeaves t) (hn : NoNeg t) :
    ∃ u, parseTop (render t) = some u ∧ evaluate u = evaluate t := by
  have hw := buildable_WFLeaves t hb
  refine ⟨t, ?_, rfl⟩
  unfold parseTop
  exact parse_render _ t hn hw
    (Nat.lt_succ_of_lt (depth_lt_render_length t hw))

/-- C1 witness: the concrete strategy-buildable neg-free tree
`((1 + 1) * (1 + 1))` round-trips. -/
theorem c1_round_trip_eval_witness :
    ∃ u, parseTop (render demoExpr) = some u ∧ evaluate u = evaluate demoExpr :=
  c1_round_trip_eval demoExpr (by decide)
    ⟨⟨trivial, trivial⟩, ⟨trivial, trivial⟩⟩

/-! ### Claim C4: split order over the precedence bands -/

theorem binStr_head_not_ws (op : BOp) (l r : Expr) (hnl : NoNeg l)
    (hwl : WFLeaves l) : ((binStr l op r).headD ' ').isWhitespace = false := by
  rw [binStr, headD_append_left _ _ (render_ne_nil l hwl)]
  exact render_head_not_ws l hnl hwl

theorem binStr_last_not_ws (op : BOp) (l r : Expr) (hnr : NoNeg r)
    (hwr : WFLeaves r) : ((binStr l op r).getLastD ' ').isWhitespace = false := by
  rw [binStr, getLastD_append_right _ _ (by simp)]
  rw [show (' ' :: bopChar op :: ' ' :: render r : List Char) =
    [' ', bopChar op, ' '] ++ render r from rfl]
  rw [getLastD_append_right _ _ (render_ne_nil r hwr)]
  exact render_last_not_ws r hnr hwr

/-- The outer-parenthesis matching test fails on `L op R` (the running
depth returns to zero at the end of `L`), so no stripping happens. -/
theorem noZeroPref_binStr (op : BOp) (l r : Expr)
    (hnl : NoNeg l) (hwl : WFLeaves l) (hnr : NoNeg r) (hwr : WFLeaves r) :
    noZeroPref (binStr l op r).dropLast 0 = false := by
  have hlnil := render_ne_nil l hwl
  have hrnil := render_ne_nil r hwr
  have hchar : ¬ (noZeroPref (binStr l op r).dropLast 0 = true) := by
    rw [noZeroPref_iff]
    push_neg
    refine ⟨(render l).length, ?_, ?_, ?_⟩
    · have := List.length_pos.mpr hlnil
      omega
    · rw [List.length_dropLast, binStr_length]
      have := List.length_pos.mpr hrnil
      omega
    · rw [List.dropLast_eq_take, List.take_take]
      rw [show min (render l).length ((binStr l op r).length - 1) =
        (render l).length by rw [binStr_length]; have := List.length_pos.mpr hrnil; omega]
      rw [binStr, List.take_left]
      rw [bal_render l hnl hwl]
      ring
  cases hb : noZeroPref (binStr l op r).dropLast 0
  · rfl
  · exact absurd hb hchar

/-- Parsing the unparenthesised string `L op R` splits at `op` and parses
the operands. -/
theorem parse_binStr (fuel : Nat) (op : BOp) (l r : Expr)
    (hnl : NoNeg l) (hwl : WFLeaves l) (hnr : NoNeg r) (hwr : WFLeaves r)
    (hdl : l.depth < fuel) (hdr : r.depth < fuel) :
    parse (fuel + 1) (binStr l op r) = some (.binary op l r) := by
  have hl := parse_render fuel l hnl hwl hdl
  have hr := parse_render fuel r hnr hwr hdr
  have hsplit := splitAt_binStr fuel op l r hnl hwl hnr hwr hl hr
  simp only [parse]
  rw [trim_eq_self _ (binStr_head_not_ws op l r hnl hwl)
    (binStr_last_not_ws op l r hnr hwr)]
  rw [if_neg (show ¬(binStr l op r = []) from by simp [binStr])]
  rw [stripParens_stop _ (Or.inr (noZeroPref_binStr op l r hnl hwl hnr hwr))]
  dsimp only
  cases op with
  | powOp =>
    rw [scanBand_binStr_mem l .powOp r ['^'] (by decide) hnl hwl hnr hwr (by decide)]
    dsimp only
    exact hsplit
  | mul =>
    rw [scanBand_binStr_notmem l .mul r ['^'] (by decide) hnl hwl hnr hwr (by decide)]
    dsimp only
    rw [scanBand_binStr_mem l .mul r ['*', '/', '%'] (by decide) hnl hwl hnr hwr
      (by decide)]
    dsimp only
    exact hsplit
  | div =>
    rw [scanBand_binStr_notmem l .div r ['^'] (by decide) hnl hwl hnr hwr (by decide)]
    dsimp only
    rw [scanBand_binStr_mem l .div r ['*', '/', '%'] (by decide) hnl hwl hnr hwr
      (by decide)]
    dsimp only
    exact hsplit
  | modOp =>
    rw [scanBand_binStr_notmem l .modOp r ['^'] (by decide) hnl hwl hnr hwr (by decide)]
    dsimp only
    rw [scanBand_binStr_mem l .modOp r ['*', '/', '%'] (by decide) hnl hwl hnr hwr
      (by decide)]
    dsimp only
    exact hsplit
  | add =>
    rw [scanBand_binStr_notmem l .add r ['^'] (by decide) hnl hwl hnr hwr (by decide)]
    dsimp only
    rw [scanBand_binStr_notmem l .add r ['*', '/', '%'] (by decide) hnl hwl hnr hwr
      (by decide)]
    dsimp only
    rw [scanBand_binStr_mem l .add r ['+', '-'] (by decide) hnl hwl hnr hwr (by decide)]
    dsimp only
    exact hsplit
  | sub =>
    rw [scanBand_binStr_notmem l .sub r ['^'] (by decide) hnl hwl hnr hwr (by decide)]
    dsimp only
    rw [scanBand_binStr_notmem l .sub r ['*', '/', '%'] (by decide) hnl hwl hnr hwr
      (by decide)]
    dsimp only
    rw [scanBand_binStr_mem l .sub r ['+', '-'] (by decide) hnl hwl hnr hwr (by decide)]
    dsimp only
    exact hsplit

/-- The unparenthesised two-operator string `A op1 B op2 C` over literal
operands: both operators sit at parenthesis depth 0, so the parser's band
order decides which one becomes the root. -/
def triStr (a : DecLit) (op1 : BOp) (b : DecLit) (op2 : BOp) (c : DecLit) : List Char :=
  render (.num a) ++ ' ' :: bopChar op1 :: ' ' :: binStr (.num b) op2 (.num c)

theorem triStr_facts (a : DecLit) (op1 : BOp) (b : DecLit) (op2 : BOp) (c : DecLit) :
    matchesAt (triStr a op1 b op2 c) 0 (render (.num a)) ∧
    (triStr a op1 b op2 c).getD (render (.num a)).length ' ' = ' ' ∧
    (triStr a op1 b op2 c).getD ((render (.num a)).length + 1) ' ' = bopChar op1 ∧
    (triStr a op1 b op2 c).getD ((render (.num a)).length + 2) ' ' = ' ' ∧
    matchesAt (triStr a op1 b op2 c) ((render (.num a)).length + 3) (render (.num b)) ∧
    (triStr a op1 b op2 c).getD
      ((render (.num a)).length + (render (.num b)).length + 3) ' ' = ' ' ∧
    (triStr a op1 b op2 c).getD
      ((render (.num a)).length + (render (.num b)).length + 4) ' ' = bopChar op2 ∧
    (triStr a op1 b op2 c).getD
      ((render (.num a)).length + (render (.num b)).length + 5) ' ' = ' ' ∧
    matchesAt (triStr a op1 b op2 c)
      ((render (.num a)).length + (render (.num b)).length + 6) (render (.num c)) := by
  refine ⟨?_, ?_, ?_, ?_, ?_, ?_, ?_, ?_, ?_⟩
  · simpa using matchesAt_of_append (triStr a op1 b op2 c) [] (render (.num a))
      (' ' :: bopChar op1 :: ' ' :: binStr (.num b) op2 (.num c)) (by simp [triStr])
  · exact (matchesAt_of_append (triStr a op1 b op2 c) (render (.num a)) [' ']
      (bopChar op1 :: ' ' :: binStr (.num b) op2 (.num c)) (by simp [triStr])).1
  · have := (matchesAt_of_append (triStr a op1 b op2 c)
      (render (.num a) ++ [' ']) [bopChar op1]
      (' ' :: binStr (.num b) op2 (.num c)) (by simp [triStr])).1
    rwa [show (render (.num a) ++ [' ']).length = (render (.num a)).length + 1
      by simp] at this
  · have := (matchesAt_of_append (triStr a op1 b op2 c)
      (render (.num a) ++ [' ', bopChar op1]) [' ']
      (binStr (.num b) op2 (.num c)) (by simp [triStr])).1
    rwa [show (render (.num a) ++ [' ', bopChar op1]).length =
      (render (.num a)).length + 2 by simp] at this
  · have := matchesAt_of_append (triStr a op1 b op2 c)
      (render (.num a) ++ [' ', bopChar op1, ' ']) (render (.num b))
      (' ' :: bopChar op2 :: ' ' :: render (.num c)) (by simp [triStr, binStr])
    rwa [show (render (.num a) ++ [' ', bopChar op1, ' ']).length =
      (render (.num a)).length + 3 by simp] at this
  · have := (matchesAt_of_append (triStr a op1 b op2 c)
      (render (.num a) ++ [' ', bopChar op1, ' '] ++ render (.num b)) [' ']
      (bopChar op2 :: ' ' :: render (.num c)) (by simp [triStr, binStr])).1
    rwa [show (render (.num a) ++ [' ', bopChar op1, ' '] ++ render (.num b)).length =
      (render (.num a)).length + (render (.num b)).length + 3 by simp; omega] at this
  · have := (matchesAt_of_append (triStr a op1 b op2 c)
      (render (.num a) ++ [' ', bopChar op1, ' '] ++ render (.num b) ++ [' '])
      [bopChar op2] (' ' :: render (.num c)) (by simp [triStr, binStr])).1
    rwa [show (render (.num a) ++ [' ', bopChar op1, ' '] ++ render (.num b) ++
      [' ']).length = (render (.num a)).length + (render (.num b)).length + 4
      by simp; omega] at this
  · have := (matchesAt_of_append (triStr a op1 b op2 c)
      (render (.num a) ++ [' ', bopChar op1, ' '] ++ render (.num b) ++
        [' ', bopChar op2]) [' '] (render (.num c)) (by simp [triStr, binStr])).1
    rwa [show (render (.num a) ++ [' ', bopChar op1, ' '] ++ render (.num b) ++
      [' ', bopChar op2]).length = (render (.num a)).length + (render (.num b)).length + 5
      by simp; omega] at this
  · have := matchesAt_of_append (triStr a op1 b op2 c)
      (render (.num a) ++ [' ', bopChar op1, ' '] ++ render (.num b) ++
        [' ', bopChar op2, ' ']) (render (.num c)) [] (by simp [triStr, binStr])
    rwa [show (render (.num a) ++ [' ', bopChar op1, ' '] ++ render (.num b) ++
      [' ', bopChar op2, ' ']).length =
      (render (.num a)).length + (render (.num b)).length + 6 by simp; omega] at this

theorem triStr_length (a : DecLit) (op1 : BOp) (b : DecLit) (op2 : BOp) (c : DecLit) :
    (triStr a op1 b op2 c).length = ((render (.num a)).length +
      (render (.num b)).length + 6) + (render (.num c)).length := by
  simp [triStr, binStr]
  omega

/-- The scan for a band containing the right operator finds the right
operator (right-to-left: it is examined first). -/
theorem scanBand_triStr_mem2 (band : List Char) (hband : band ⊆ binChars)
    (a : DecLit) (wa : a.WF) (b : DecLit) (wb : b.WF) (c : DecLit) (wc : c.WF)
    (op1 op2 : BOp) (hm : bopChar op2 ∈ band) :
    scanBand (triStr a op1 b op2 c) band =
      some ((render (.num a)).length + (render (.num b)).length + 4) := by
  obtain ⟨hmA, hsp0, hop1, hsp2, hmB, hsp3, hop2, hsp5, hmC⟩ := triStr_facts a op1 b op2 c
  have hopne1 : bopChar op2 ≠ '(' := by cases op2 <;> decide
  have hopne2 : bopChar op2 ≠ ')' := by cases op2 <;> decide
  unfold scanBand
  rw [triStr_length]
  rw [scanAux_skip_inert _ band hband (render (.num c)) _ 0
    (fun x hx => inert_renderLit c wc x hx) hmC]
  rw [show (render (.num a)).length + (render (.num b)).length + 6 =
    ((render (.num a)).length + (render (.num b)).length + 5) + 1 by omega]
  rw [scanAux_pass _ band _ 0 (by rw [hsp5]; decide) (by rw [hsp5]; decide)
    (Or.inr (by rw [hsp5]; intro hc; have := hband hc; simp [binChars] at this))]
  rw [show (render (.num a)).length + (render (.num b)).length + 5 =
    ((render (.num a)).length + (render (.num b)).length + 4) + 1 by omega]
  rw [scanAux_hit _ band _ (by rw [hop2]; exact hopne1) (by rw [hop2]; exact hopne2)
    (by rw [hop2]; exact hm) ?_ ?_]
  · rintro ⟨-, -, hdig, -⟩
    rw [show (render (.num a)).length + (render (.num b)).length + 4 - 1 =
      (render (.num a)).length + (render (.num b)).length + 3 by omega, hsp3] at hdig
    exact Bool.noConfusion hdig
  · rintro ⟨-, h0 | hsk⟩
    · omega
    · rw [show (render (.num a)).length + (render (.num b)).length + 4 - 1 =
        (render (.num a)).length + (render (.num b)).length + 3 by omega, hsp3] at hsk
      simp [skipSet] at hsk

/-- The scan for a band containing the left operator but not the right one
passes the right operator and finds the left one. -/
theorem scanBand_triStr_mem1 (band : List Char) (hband : band ⊆ binChars)
    (a : DecLit) (wa : a.WF) (b : DecLit) (wb : b.WF) (c : DecLit) (wc : c.WF)
    (op1 op2 : BOp) (hm2 : bopChar op2 ∉ band) (hm1 : bopChar op1 ∈ band) :
    scanBand (triStr a op1 b op2 c) band = some ((render (.num a)).length + 1) := by
  obtain ⟨hmA, hsp0, hop1, hsp2, hmB, hsp3, hop2, hsp5, hmC⟩ := triStr_facts a op1 b op2 c
  have h2ne1 : bopChar op2 ≠ '(' := by cases op2 <;> decide
  have h2ne2 : bopChar op2 ≠ ')' := by cases op2 <;> decide
  have h1ne1 : bopChar op1 ≠ '(' := by cases op1 <;> decide
  have h1ne2 : bopChar op1 ≠ ')' := by cases op1 <;> decide
  unfold scanBand
  rw [triStr_length]
  rw [scanAux_skip_inert _ band hband (render (.num c)) _ 0
    (fun x hx => inert_renderLit c wc x hx) hmC]
  rw [show (render (.num a)).length + (render (.num b)).length + 6 =
    ((render (.num a)).length + (render (.num b)).length + 5) + 1 by omega]
  rw [scanAux_pass _ band _ 0 (by rw [hsp5]; decide) (by rw [hsp5]; decide)
    (Or.inr (by rw [hsp5]; intro hc; have := hband hc; simp [binChars] at this))]
  rw [show (render (.num a)).length + (render (.num b)).length + 5 =
    ((render (.num a)).length + (render (.num b)).length + 4) + 1 by omega]
  rw [scanAux_pass _ band _ 0 (by rw [hop2]; exact h2ne1) (by rw [hop2]; exact h2ne2)
    (Or.inr (by rw [hop2]; exact hm2))]
  rw [show (render (.num a)).length + (render (.num b)).length + 4 =
    ((render (.num a)).length + (render (.num b)).length + 3) + 1 by omega]
  rw [scanAux_pass _ band _ 0 (by rw [hsp3]; decide) (by rw [hsp3]; decide)
    (Or.inr (by rw [hsp3]; intro hc; have := hband hc; simp [binChars] at this))]
  rw [show (render (.num a)).length + (render (.num b)).length + 3 =
    ((render (.num a)).length + 3) + (render (.num b)).length by omega]
  rw [scanAux_skip_inert _ band hband (render (.num b)) _ 0
    (fun x hx => inert_renderLit b wb x hx) hmB]
  rw [show (render (.num a)).length + 3 = ((render (.num a)).length + 2) + 1 by omega]
  rw [scanAux_pass _ band _ 0 (by rw [hsp2]; decide) (by rw [hsp2]; decide)
    (Or.inr (by rw [hsp2]; intro hc; have := hband hc; simp [binChars] at this))]
  rw [show (render (.num a)).length + 2 = ((render (.num a)).length + 1) + 1 by omega]
  rw [scanAux_hit _ band _ (by rw [hop1]; exact h1ne1) (by rw [hop1]; exact h1ne2)
    (by rw [hop1]; exact hm1) ?_ ?_]
  · rintro ⟨-, -, hdig, -⟩
    rw [show (render (.num a)).length + 1 - 1 = (render (.num a)).length by omega,
      hsp0] at hdig
    exact Bool.noConfusion hdig
  · rintro ⟨-, h0 | hsk⟩
    · omega
    · rw [show (render (.num a)).length + 1 - 1 = (render (.num a)).length by omega,
        hsp0] at hsk
      simp [skipSet] at hsk

/-- The scan for a band containing neither operator finds nothing. -/
theorem scanBand_triStr_none (band : List Char) (hband : band ⊆ binChars)
    (a : DecLit) (wa : a.WF) (b : DecLit) (wb : b.WF) (c : DecLit) (wc : c.WF)
    (op1 op2 : BOp) (hm2 : bopChar op2 ∉ band) (hm1 : bopChar op1 ∉ band) :
    scanBand (triStr a op1 b op2 c) band = none := by
  obtain ⟨hmA, hsp0, hop1, hsp2, hmB, hsp3, hop2, hsp5, hmC⟩ := triStr_facts a op1 b op2 c
  have h2ne1 : bopChar op2 ≠ '(' := by cases op2 <;> decide
  have h2ne2 : bopChar op2 ≠ ')' := by cases op2 <;> decide
  have h1ne1 : bopChar op1 ≠ '(' := by cases op1 <;> decide
  have h1ne2 : bopChar op1 ≠ ')' := by cases op1 <;> decide
  unfold scanBand
  rw [triStr_length]
  rw [scanAux_skip_inert _ band hband (render (.num c)) _ 0
    (fun x hx => inert_renderLit c wc x hx) hmC]
  rw [show (render (.num a)).length + (render (.num b)).length + 6 =
    ((render (.num a)).length + (render (.num b)).length + 5) + 1 by omega]
  rw [scanAux_pass _ band _ 0 (by rw [hsp5]; decide) (by rw [hsp5]; decide)
    (Or.inr (by rw [hsp5]; intro hc; have := hband hc; simp [binChars] at this))]
  rw [show (render (.num a)).length + (render (.num b)).length + 5 =
    ((render (.num a)).length + (render (.num b)).length + 4) + 1 by omega]
  rw [scanAux_pass _ band _ 0 (by rw [hop2]; exact h2ne1) (by rw [hop2]; exact h2ne2)
    (Or.inr (by rw [hop2]; exact hm2))]
  rw [show (render (.num a)).length + (render (.num b)).length + 4 =
    ((render (.num a)).length + (render (.num b)).length + 3) + 1 by omega]
  rw [scanAux_pass _ band _ 0 (by rw [hsp3]; decide) (by rw [hsp3]; decide)
    (Or.inr (by rw [hsp3]; intro hc; have := hband hc; simp [binChars] at this))]
  rw [show (render (.num a)).length + (render (.num b)).length + 3 =
    ((render (.num a)).length + 3) + (render (.num b)).length by omega]
  rw [scanAux_skip_inert _ band hband (render (.num b)) _ 0
    (fun x hx => inert_renderLit b wb x hx) hmB]
  rw [show (render (.num a)).length + 3 = ((render (.num a)).length + 2) + 1 by omega]
  rw [scanAux_pass _ band _ 0 (by rw [hsp2]; decide) (by rw [hsp2]; decide)
    (Or.inr (by rw [hsp2]; intro hc; have := hband hc; simp [binChars] at this))]
  rw [show (render (.num a)).length + 2 = ((render (.num a)).length + 1) + 1 by omega]
  rw [scanAux_pass _ band _ 0 (by rw [hop1]; exact h1ne1) (by rw [hop1]; exact h1ne2)
    (Or.inr (by rw [hop1]; exact hm1))]
  rw [show (render (.num a)).length + 1 = (render (.num a)).length + 1 from rfl]
  rw [scanAux_pass _ band _ 0 (by rw [hsp0]; decide) (by rw [hsp0]; decide)
    (Or.inr (by rw [hsp0]; intro hc; have := hband hc; simp [binChars] at this))]
  rw [show (render (.num a)).length = 0 + (render (.num a)).length by omega]
  rw [scanAux_skip_inert _ band hband (render (.num a)) _ 0
    (fun x hx => inert_renderLit a wa x hx) hmA]
  rfl

/-- Splitting `A op1 B op2 C` at `op2` parses `A op1 B` and `C`. -/
theorem splitAt_triStr_right (fuel : Nat) (hf : 2 ≤ fuel)
    (a : DecLit) (wa : a.WF) (b : DecLit) (wb : b.WF) (c : DecLit) (wc : c.WF)
    (op1 op2 : BOp) :
    splitAt (parse fuel) (triStr a op1 b op2 c)
      ((render (.num a)).length + (render (.num b)).length + 4) =
      some (.binary op2 (.binary op1 (.num a) (.num b)) (.num c)) := by
  obtain ⟨f', rfl⟩ : ∃ f', fuel = f' + 1 := ⟨fuel - 1, by omega⟩
  obtain ⟨-, -, -, -, -, -, hop2, -, -⟩ := triStr_facts a op1 b op2 c
  have hshape : triStr a op1 b op2 c =
      (binStr (.num a) op1 (.num b) ++ [' ']) ++
        bopChar op2 :: ' ' :: render (.num c) := by
    simp [triStr, binStr]
  have hlen4 : (binStr (.num a) op1 (.num b) ++ [' ']).length =
      (render (.num a)).length + (render (.num b)).length + 4 := by
    simp [binStr]
    omega
  have htake : (triStr a op1 b op2 c).take
      ((render (.num a)).length + (render (.num b)).length + 4) =
      binStr (.num a) op1 (.num b) ++ [' '] := by
    rw [hshape, List.take_append_eq_append_take,
      List.take_of_length_le (by rw [hlen4]),
      show (render (.num a)).length + (render (.num b)).length + 4 -
        (binStr (.num a) op1 (.num b) ++ [' ']).length = 0 by rw [hlen4]; omega]
    simp
  have hdrop : (triStr a op1 b op2 c).drop
      ((render (.num a)).length + (render (.num b)).length + 4 + 1) =
      ' ' :: render (.num c) := by
    rw [hshape, List.drop_append_eq_append_drop,
      List.drop_of_length_le (by rw [hlen4]; omega),
      show (render (.num a)).length + (render (.num b)).length + 4 + 1 -
        (binStr (.num a) op1 (.num b) ++ [' ']).length = 1 by rw [hlen4]; omega]
    rfl
  have hbl := parse_binStr f' op1 (.num a) (.num b) trivial wa trivial wb
    (by simp only [Expr.depth]; omega) (by simp only [Expr.depth]; omega)
  have hc : parse (f' + 1) (render (.num c)) = some (.num c) :=
    parse_render (f' + 1) (.num c) trivial wc (by simp only [Expr.depth]; omega)
  rw [splitAt]
  dsimp only
  rw [hop2, htake, hdrop]
  rw [trim_concat_ws _ (binStr_head_not_ws op1 (.num a) (.num b) trivial wa)
    (binStr_last_not_ws op1 (.num a) (.num b) trivial wb)]
  rw [trim_ws_cons _ (render_head_not_ws (.num c) trivial wc)
    (render_last_not_ws (.num c) trivial wc)]
  rw [if_neg (by push_neg; exact ⟨by simp [binStr], render_ne_nil (.num c) wc⟩)]
  rw [if_neg (by rintro ⟨-, hneg⟩; exact render_head_ne_minus (.num c) trivial wc hneg)]
  rw [bopOfChar_bopChar, hbl, hc]
  rfl

/-- Splitting `A op1 B op2 C` at `op1` parses `A` and `B op2 C`. -/
theorem splitAt_triStr_left (fuel : Nat) (hf : 2 ≤ fuel)
    (a : DecLit) (wa : a.WF) (b : DecLit) (wb : b.WF) (c : DecLit) (wc : c.WF)
    (op1 op2 : BOp) :
    splitAt (parse fuel) (triStr a op1 b op2 c) ((render (.num a)).length + 1) =
      some (.binary op1 (.num a) (.binary op2 (.num b) (.num c))) := by
  obtain ⟨f', rfl⟩ : ∃ f', fuel = f' + 1 := ⟨fuel - 1, by omega⟩
  obtain ⟨-, -, hop1, -, -, -, -, -, -⟩ := triStr_facts a op1 b op2 c
  have hshape : triStr a op1 b op2 c =
      (render (.num a) ++ [' ']) ++
        bopChar op1 :: ' ' :: binStr (.num b) op2 (.num c) := by
    simp [triStr, binStr]
  have hlen1 : (render (.num a) ++ [' ']).length = (render (.num a)).length + 1 := by
    simp
  have htake : (triStr a op1 b op2 c).take ((render (.num a)).length + 1) =
      render (.num a) ++ [' '] := by
    rw [hshape, List.take_append_eq_append_take,
      List.take_of_length_le (by rw [hlen1]),
      show (render (.num a)).length + 1 - (render (.num a) ++ [' ']).length = 0 by
        rw [hlen1]; omega]
    simp
  have hdrop : (triStr a op1 b op2 c).drop ((render (.num a)).length + 1 + 1) =
      ' ' :: binStr (.num b) op2 (.num c) := by
    rw [hshape, List.drop_append_eq_append_drop,
      List.drop_of_length_le (by rw [hlen1]; omega),
      show (render (.num a)).length + 1 + 1 - (render (.num a) ++ [' ']).length = 1 by
        rw [hlen1]; omega]
    rfl
  have hbs := parse_binStr f' op2 (.num b) (.num c) trivial wb trivial wc
    (by simp only [Expr.depth]; omega) (by simp only [Expr.depth]; omega)
  have ha : parse (f' + 1) (render (.num a)) = some (.num a) :=
    parse_render (f' + 1) (.num a) trivial wa (by simp only [Expr.depth]; omega)
  have hbhead : (binStr (.num b) op2 (.num c)).headD ' ' ≠ '-' := by
    rw [binStr, headD_append_left _ _ (render_ne_nil (.num b) wb)]
    exact render_head_ne_minus (.num b) trivial wb
  rw [splitAt]
  dsimp only
  rw [hop1, htake, hdrop]
  rw [trim_concat_ws _ (render_head_not_ws (.num a) trivial wa)
    (render_last_not_ws (.num a) trivial wa)]
  rw [trim_ws_cons _ (binStr_head_not_ws op2 (.num b) (.num c) trivial wb)
    (binStr_last_not_ws op2 (.num b) (.num c) trivial wc)]
  rw [if_neg (by push_neg; exact ⟨render_ne_nil (.num a) wa, by simp [binStr]⟩)]
  rw [if_neg (by rintro ⟨-, hneg⟩; exact hbhead hneg)]
  rw [bopOfChar_bopChar, ha, hbs]
  rfl

/-- The scan order over precedence bands: `^` first, then `* / %`, then
`+ -`. -/
def bandOf : BOp → Nat
  | .powOp => 0
  | .mul => 1
  | .div => 1
  | .modOp => 1
  | .add => 2
  | .sub => 2

theorem band0_iff (op : BOp) : bopChar op ∈ (['^'] : List Char) ↔ bandOf op = 0 := by
  cases op <;> decide

theorem band1_iff (op : BOp) :
    bopChar op ∈ (['*', '/', '%'] : List Char) ↔ bandOf op = 1 := by
  cases op <;> decide

theorem band2_iff (op : BOp) :
    bopChar op ∈ (['+', '-'] : List Char) ↔ bandOf op = 2 := by
  cases op <;> decide

theorem bandOf_le_two (op : BOp) : bandOf op ≤ 2 := by
  cases op <;> decide

theorem triStr_head_not_ws (a : DecLit) (wa : a.WF) (op1 : BOp) (b : DecLit)
    (op2 : BOp) (c : DecLit) :
    ((triStr a op1 b op2 c).headD ' ').isWhitespace = false := by
  rw [triStr, headD_append_left _ _ (render_ne_nil (.num a) wa)]
  exact render_head_not_ws (.num a) trivial wa

theorem triStr_last_not_ws (a : DecLit) (op1 : BOp) (b : DecLit) (wb : b.WF)
    (op2 : BOp) (c : DecLit) (wc : c.WF) :
    ((triStr a op1 b op2 c).getLastD ' ').isWhitespace = false := by
  rw [triStr, getLastD_append_right _ _ (by simp)]
  rw [show (' ' :: bopChar op1 :: ' ' :: binStr (.num b) op2 (.num c) : List Char) =
    [' ', bopChar op1, ' '] ++ binStr (.num b) op2 (.num c) from rfl]
  rw [getLastD_append_right _ _ (by simp [binStr])]
  exact binStr_last_not_ws op2 (.num b) (.num c) trivial wc

/-- Parsing `A op1 B op2 C` when `op2`'s band is tried no later than
`op1`'s: the split happens at the rightmost operator of the
highest-precedence band present, here `op2`. -/
theorem parseTop_triStr_right (a : DecLit) (wa : a.WF) (b : DecLit) (wb : b.WF)
    (c : DecLit) (wc : c.WF) (op1 op2 : BOp) (h : bandOf op2 ≤ bandOf op1) :
    parseTop (triStr a op1 b op2 c) =
      some (.binary op2 (.binary op1 (.num a) (.num b)) (.num c)) := by
  have hfuel : 2 ≤ (triStr a op1 b op2 c).length := by
    rw [triStr_length]
    omega
  have hsplit := splitAt_triStr_right (triStr a op1 b op2 c).length hfuel
    a wa b wb c wc op1 op2
  have hhd : (triStr a op1 b op2 c).headD ' ' = (render (.num a)).headD ' ' :=
    headD_append_left _ _ (render_ne_nil (.num a) wa)
  rw [parseTop]
  simp only [parse]
  rw [trim_eq_self _ (triStr_head_not_ws a wa op1 b op2 c)
    (triStr_last_not_ws a op1 b wb op2 c wc)]
  rw [if_neg (show ¬(triStr a op1 b op2 c = []) from by simp [triStr])]
  rw [stripParens_stop _ (Or.inl (by
    rintro ⟨hp, -⟩
    rw [hhd] at hp
    exact (digit_ne_all _ (renderLit_head_digit a wa)).1 hp))]
  dsimp only
  by_cases h0 : bandOf op2 = 0
  · rw [scanBand_triStr_mem2 ['^'] (by decide) a wa b wb c wc op1 op2
      ((band0_iff op2).mpr h0)]
    dsimp only
    exact hsplit
  · by_cases h1 : bandOf op2 = 1
    · rw [scanBand_triStr_none ['^'] (by decide) a wa b wb c wc op1 op2
        (fun hc => h0 ((band0_iff op2).mp hc))
        (fun hc => by have := (band0_iff op1).mp hc; omega)]
      dsimp only
      rw [scanBand_triStr_mem2 ['*', '/', '%'] (by decide) a wa b wb c wc op1 op2
        ((band1_iff op2).mpr h1)]
      dsimp only
      exact hsplit
    · have h2 : bandOf op2 = 2 := by have := bandOf_le_two op2; omega
      rw [scanBand_triStr_none ['^'] (by decide) a wa b wb c wc op1 op2
        (fun hc => h0 ((band0_iff op2).mp hc))
        (fun hc => by have := (band0_iff op1).mp hc; omega)]
      dsimp only
      rw [scanBand_triStr_none ['*', '/', '%'] (by decide) a wa b wb c wc op1 op2
        (fun hc => h1 ((band1_iff op2).mp hc))
        (fun hc => by have := (band1_iff op1).mp hc; omega)]
      dsimp only
      rw [scanBand_triStr_mem2 ['+', '-'] (by decide) a wa b wb c wc op1 op2
        ((band2_iff op2).mpr h2)]
      dsimp only
      exact hsplit

/-- Parsing `A op1 B op2 C` when `op1`'s band is tried strictly earlier
than `op2`'s: the split happens at `op1`, the only operator of the
highest-precedence band present. -/
theorem parseTop_triStr_left (a : DecLit) (wa : a.WF) (b : DecLit) (wb : b.WF)
    (c : DecLit) (wc : c.WF) (op1 op2 : BOp) (h : bandOf op1 < bandOf op2) :
    parseTop (triStr a op1 b op2 c) =
      some (.binary op1 (.num a) (.binary op2 (.num b) (.num c))) := by
  have hfuel : 2 ≤ (triStr a op1 b op2 c).length := by
    rw [triStr_length]
    omega
  have hsplit := splitAt_triStr_left (triStr a op1 b op2 c).length hfuel
    a wa b wb c wc op1 op2
  have hhd : (triStr a op1 b op2 c).headD ' ' = (render (.num a)).headD ' ' :=
    headD_append_left _ _ (render_ne_nil (.num a) wa)
  rw [parseTop]
  simp only [parse]
  rw [trim_eq_self _ (triStr_head_not_ws a wa op1 b op2 c)
    (triStr_last_not_ws a op1 b wb op2 c wc)]
  rw [if_neg (show ¬(triStr a op1 b op2 c = []) from by simp [triStr])]
  rw [stripParens_stop _ (Or.inl (by
    rintro ⟨hp, -⟩
    rw [hhd] at hp
    exact (digit_ne_all _ (renderLit_head_digit a wa)).1 hp))]
  dsimp only
  by_cases h0 : bandOf op1 = 0
  · rw [scanBand_triStr_mem1 ['^'] (by decide) a wa b wb c wc op1 op2
      (fun hc => by have := (band0_iff op2).mp hc; omega)
      ((band0_iff op1).mpr h0)]
    dsimp only
    exact hsplit
  · have h1 : bandOf op1 = 1 := by have := bandOf_le_two op2; omega
    rw [scanBand_triStr_none ['^'] (by decide) a wa b wb c wc op1 op2
      (fun hc => by have := (band0_iff op2).mp hc; omega)
      (fun hc => h0 ((band0_iff op1).mp hc))]
    dsimp only
    rw [scanBand_triStr_mem1 ['*', '/', '%'] (by decide) a wa b wb c wc op1 op2
      (fun hc => by have := (band1_iff op2).mp hc; omega)
      ((band1_iff op1).mpr h1)]
    dsimp only
    exact hsplit

/-- C4 counterexample: `1 + 2 ^ 3` parses with `^` at the root (the parser
tries the `^` band first), not with the lowest-precedence `+` at the root
as the claim's split order would require. -/
theorem c4_counterexample :
    parseTop ['1', ' ', '+', ' ', '2', ' ', '^', ' ', '3'] =
      some (.binary .powOp
        (.binary .add (.num ⟨false, [1], []⟩) (.num ⟨false, [2], []⟩))
        (.num ⟨false, [3], []⟩)) ∧
    ∀ l r : Expr, parseTop ['1', ' ', '+', ' ', '2', ' ', '^', ' ', '3'] ≠
      some (.binary .add l r) := by
  have h1 : parseTop ['1', ' ', '+', ' ', '2', ' ', '^', ' ', '3'] =
      some (.binary .powOp
        (.binary .add (.num ⟨false, [1], []⟩) (.num ⟨false, [2], []⟩))
        (.num ⟨false, [3], []⟩)) := by decide
  refine ⟨h1, ?_⟩
  intro l r hc
  rw [h1] at hc
  simp at hc

/-- C4 (corrected): on an unparenthesised two-operator string
`A op1 B op2 C` the parser splits at the operator whose band is tried
first — `^` before `* / %` before `+ -`, i.e. the HIGHEST-precedence band
present wins — and within one band it splits at the rightmost operator
(`op2` on a tie), so the right operand of the root stays operator-free. -/
theorem c4_split_band_order (a b c : DecLit) (wa : a.WF) (wb : b.WF) (wc : c.WF)
    (op1 op2 : BOp) :
    parseTop (triStr a op1 b op2 c) =
      if bandOf op2 ≤ bandOf op1 then
        some (.binary op2 (.binary op1 (.num a) (.num b)) (.num c))
      else
        some (.binary op1 (.num a) (.binary op2 (.num b) (.num c))) := by
  by_cases h : bandOf op2 ≤ bandOf op1
  · rw [if_pos h]
    exact parseTop_triStr_right a wa b wb c wc op1 op2 h
  · rw [if_neg h]
    exact parseTop_triStr_left a wa b wb c wc op1 op2 (by omega)

/-- C4 witness: `1 + 2 ^ 3` (as a `triStr` instance) splits at `^`, and
`1 - 2 + 3` splits at the rightmost operator of the shared `+ -` band. -/
theorem c4_split_band_order_witness :
    parseTop (triStr ⟨false, [1], []⟩ .add ⟨false, [2], []⟩ .powOp ⟨false, [3], []⟩) =
      (if bandOf .powOp ≤ bandOf .add then
        some (.binary .powOp
          (.binary .add (.num ⟨false, [1], []⟩) (.num ⟨false, [2], []⟩))
          (.num ⟨false, [3], []⟩))
      else
        some (.binary .add (.num ⟨false, [1], []⟩)
          (.binary .powOp (.num ⟨false, [2], []⟩) (.num ⟨false, [3], []⟩)))) ∧
    parseTop (triStr ⟨false, [1], []⟩ .sub ⟨false, [2], []⟩ .add ⟨false, [3], []⟩) =
      (if bandOf .add ≤ bandOf .sub then
        some (.binary .add
          (.binary .sub (.num ⟨false, [1], []⟩) (.num ⟨false, [2], []⟩))
          (.num ⟨false, [3], []⟩))
      else
        some (.binary .sub (.num ⟨false, [1], []⟩)
          (.binary .add (.num ⟨false, [2], []⟩) (.num ⟨false, [3], []⟩)))) :=
  ⟨c4_split_band_order ⟨false, [1], []⟩ ⟨false, [2], []⟩ ⟨false, [3], []⟩
    (by decide) (by decide) (by decide) .add .powOp,
   c4_split_band_order ⟨false, [1], []⟩ ⟨false, [2], []⟩ ⟨false, [3], []⟩
    (by decide) (by decide) (by decide) .sub .add⟩

end FourNines
